import Mathlib

/-!
CPU scheduler of the multithreaded OS simulation (student.c)

A shallow embedding of the scheduler handlers of `student.c`.  The C globals
(`current`, `ready`, `round_robin_flag`, `cs_runtime`) and the process control
blocks reachable through `pcb_t *` pointers are gathered in one explicit state
record.  A `pcb_t *` is `Option Nat`: `none` is `NULL`, `some a` is the address
of a live control block.  A handler returns `none` where the C code would
dereference `NULL` or index `current[]` outside its bounds.  The calls made into
the simulator (`context_switch`, `force_preempt`) and the condition-variable
signal are recorded, in order, in a trace; the mutex operations are recorded in
a separate log.  Each handler call is taken as one completed, uninterrupted
step.
-/

namespace OsSim

/-! ## Data model -/

/-- Modelled from the spec: the process state enumeration of the header
`os-sim.h`, which is not among the sources.  The source names `PROCESS_READY`,
`PROCESS_RUNNING`, `PROCESS_WAITING` and `PROCESS_TERMINATED`; `PROCESS_NEW` is
the state of a record that has not yet arrived at the scheduler. -/
inductive process_state_t
  | PROCESS_NEW
  | PROCESS_READY
  | PROCESS_RUNNING
  | PROCESS_WAITING
  | PROCESS_TERMINATED
  deriving DecidableEq

/-- Modelled from the spec: the process control block `pcb_t` of the header
`os-sim.h`, which is not among the sources.  Only the fields the scheduler
touches are kept: the state, the static priority and the `next` link. -/
structure pcb_t where
  state : process_state_t
  static_priority : Nat
  next : Option Nat
  deriving DecidableEq

/-- The `Queue` struct: head and tail pointers of the ready list. -/
structure Queue where
  head : Option Nat
  tail : Option Nat
  deriving DecidableEq

/-- The two mutexes of the scheduler. -/
inductive Mutex
  | current_mutex
  | ready_mutex
  deriving DecidableEq

/-- One mutex operation. -/
inductive LockOp
  | lock (m : Mutex)
  | unlock (m : Mutex)
  deriving DecidableEq

/-- One call from the scheduler into the simulator or the thread library. -/
inductive Call
  | context_switch (cpu_id : Nat) (pcb : Option Nat) (preemption_time : Int)
  | force_preempt (cpu_id : Nat)
  | cond_signal
  deriving DecidableEq

/-- The scheduler state: the memory holding the control blocks, the globals of
`student.c`, and the two logs. -/
structure Sched where
  mem : Nat → pcb_t
  current : List (Option Nat)
  ready : Queue
  round_robin_flag : Int
  cs_runtime : Int
  trace : List Call
  locks : List LockOp

/-- The store `p->state = st`. -/
def setState (mem : Nat → pcb_t) (p : Nat) (st : process_state_t) : Nat → pcb_t :=
  fun a => if a = p then { mem a with state := st } else mem a

/-- The store `p->next = n`. -/
def setNext (mem : Nat → pcb_t) (p : Nat) (n : Option Nat) : Nat → pcb_t :=
  fun a => if a = p then { mem a with next := n } else mem a

/-! ## Handlers -/

/-- The function `schedule` (lines 60-81). -/
def schedule (cpu_id : Nat) (s : Sched) : Option Sched :=
  match s.ready.head with
  | none =>
    some { s with trace := s.trace ++ [Call.context_switch cpu_id none s.cs_runtime] }
  | some temp =>
    let mem1 := setState s.mem temp process_state_t.PROCESS_RUNNING
    let ready1 : Queue :=
      if s.ready.head = s.ready.tail then { head := none, tail := none }
      else { head := (mem1 temp).next, tail := s.ready.tail }
    if cpu_id < s.current.length then
      some { s with
        mem := mem1
        ready := ready1
        current := s.current.set cpu_id (some temp)
        locks := s.locks ++ [LockOp.lock Mutex.ready_mutex, LockOp.lock Mutex.current_mutex,
          LockOp.unlock Mutex.current_mutex, LockOp.unlock Mutex.ready_mutex]
        trace := s.trace ++ [Call.context_switch cpu_id (some temp) s.cs_runtime] }
    else none

/-- The function `preempt` (lines 113-128). -/
def preempt (cpu_id : Nat) (s : Sched) : Option Sched :=
  match s.current[cpu_id]? with
  | none => none
  | some none => none
  | some (some cur) =>
    let mem1 := setState s.mem cur process_state_t.PROCESS_READY
    let locks1 := s.locks ++ [LockOp.lock Mutex.current_mutex, LockOp.lock Mutex.ready_mutex,
      LockOp.unlock Mutex.ready_mutex, LockOp.unlock Mutex.current_mutex]
    match s.ready.head with
    | none =>
      schedule cpu_id { s with
        mem := mem1, ready := { head := some cur, tail := some cur }, locks := locks1 }
    | some _ =>
      match s.ready.tail with
      | none => none
      | some t =>
        schedule cpu_id { s with
          mem := setNext mem1 t (some cur)
          ready := { head := s.ready.head, tail := some cur }
          locks := locks1 }

/-- The function `yield` (lines 138-143). -/
def yield (cpu_id : Nat) (s : Sched) : Option Sched :=
  match s.current[cpu_id]? with
  | none => none
  | some none => none
  | some (some cur) =>
    schedule cpu_id { s with
      mem := setState s.mem cur process_state_t.PROCESS_WAITING
      locks := s.locks ++ [LockOp.lock Mutex.current_mutex, LockOp.unlock Mutex.current_mutex] }

/-- The function `terminate` (lines 151-156). -/
def terminate (cpu_id : Nat) (s : Sched) : Option Sched :=
  match s.current[cpu_id]? with
  | none => none
  | some none => none
  | some (some cur) =>
    schedule cpu_id { s with
      mem := setState s.mem cur process_state_t.PROCESS_TERMINATED
      locks := s.locks ++ [LockOp.lock Mutex.current_mutex, LockOp.unlock Mutex.current_mutex] }

/-- The function `wake_up` (lines 174-189) for a live control block `process`. -/
def wake_up (process : Nat) (s : Sched) : Option Sched :=
  let mem1 := setState s.mem process process_state_t.PROCESS_READY
  let locks1 := s.locks ++ [LockOp.lock Mutex.ready_mutex, LockOp.unlock Mutex.ready_mutex]
  match s.ready.head with
  | none =>
    some { s with
      mem := mem1
      ready := { head := some process, tail := some process }
      locks := locks1
      trace := s.trace ++ [Call.cond_signal] }
  | some _ =>
    match s.ready.tail with
    | none => none
    | some t =>
      some { s with
        mem := setNext mem1 t (some process)
        ready := { head := s.ready.head, tail := some process }
        locks := locks1
        trace := s.trace ++ [Call.cond_signal] }

/-! ## Handler calls in sequence -/

/-- One handler call made on the scheduler. -/
inductive Op
  | schedule (cpu_id : Nat)
  | preempt (cpu_id : Nat)
  | yield (cpu_id : Nat)
  | terminate (cpu_id : Nat)
  | wake_up (process : Nat)
  deriving DecidableEq

/-- Run one handler call to completion. -/
def step (op : Op) (s : Sched) : Option Sched :=
  match op with
  | Op.schedule c => schedule c s
  | Op.preempt c => preempt c s
  | Op.yield c => yield c s
  | Op.terminate c => terminate c s
  | Op.wake_up p => wake_up p s

/-- Run a sequence of handler calls, each to completion, in order. -/
def run : List Op → Sched → Option Sched
  | [], s => some s
  | op :: rest, s =>
    match step op s with
    | none => none
    | some s1 => run rest s1

/-- The initial state the claims start from: `cpu_count` empty slots, an empty
ready queue, nothing logged. -/
def init (cpu_count : Nat) (cs : Int) (mem : Nat → pcb_t) : Sched :=
  { mem := mem
    current := List.replicate cpu_count none
    ready := { head := none, tail := none }
    round_robin_flag := 0
    cs_runtime := cs
    trace := []
    locks := [] }

/-! ## Reading the ready queue as a sequence -/

/-- Starting at cell `p`, the `next` links visit the cells of the list in
order, and the last cell visited is the one `tail` points to. -/
def linked (mem : Nat → pcb_t) (tail : Option Nat) : Nat → List Nat → Prop
  | p, [] => tail = some p
  | p, n :: rest => (mem p).next = some n ∧ linked mem tail n rest

/-- The ready queue holds exactly the processes of the list, head first: an
empty list is `head = tail = NULL`; otherwise `head` is the first process, the
`next` links lead through the list to `tail`, and no process occurs twice. -/
def isQueue (mem : Nat → pcb_t) (ready : Queue) : List Nat → Prop
  | [] => ready.head = none ∧ ready.tail = none
  | p :: rest => ready.head = some p ∧ linked mem ready.tail p rest ∧ (p :: rest).Nodup

instance linked.decide (mem : Nat → pcb_t) (tail : Option Nat) :
    ∀ (p : Nat) (l : List Nat), Decidable (linked mem tail p l)
  | p, [] => inferInstanceAs (Decidable (tail = some p))
  | _, n :: rest =>
    @instDecidableAnd _ _ _ (linked.decide mem tail n rest)

instance isQueue.decide (mem : Nat → pcb_t) (ready : Queue) :
    ∀ l : List Nat, Decidable (isQueue mem ready l)
  | [] => inferInstanceAs (Decidable (ready.head = none ∧ ready.tail = none))
  | p :: rest =>
    inferInstanceAs
      (Decidable (ready.head = some p ∧ linked mem ready.tail p rest ∧ (p :: rest).Nodup))

/-! ## Observations on traces and call sequences -/

/-- The processes the simulator was told to run, in the order of the
`context_switch` calls that name a process. -/
def dispatched : List Call → List Nat
  | [] => []
  | Call.context_switch _ (some p) _ :: rest => p :: dispatched rest
  | _ :: rest => dispatched rest

/-- The process a handler call appends to the ready queue in state `s`:
`wake_up` appends its argument, `preempt` appends `current[cpu_id]`. -/
def enqueues (s : Sched) : Op → List Nat
  | Op.wake_up p => [p]
  | Op.preempt c =>
    match s.current[c]? with
    | some (some cur) => [cur]
    | _ => []
  | _ => []

/-- The processes appended to the ready queue by a sequence of handler calls
started in state `s`, in the order they are appended. -/
def enqueuedBy : List Op → Sched → List Nat
  | [], _ => []
  | op :: rest, s =>
    enqueues s op ++
      (match step op s with
       | none => []
       | some s1 => enqueuedBy rest s1)

/-- What the last `context_switch` for `cpu_id` in the trace told that CPU to
run: `none` when there was no such call, `some none` for the idle process. -/
def lastSwitch (cpu_id : Nat) : List Call → Option (Option Nat)
  | [] => none
  | c :: rest =>
    match lastSwitch cpu_id rest with
    | some r => some r
    | none =>
      match c with
      | Call.context_switch c' pcb _ => if c' = cpu_id then some pcb else none
      | _ => none

/-- The engine protocol for one call: `wake_up` only for a process that is new
or WAITING; `preempt`, `yield`, `terminate` only for a CPU whose last
`context_switch` told it to run a process. -/
def allowed (s : Sched) : Op → Bool
  | Op.schedule _ => true
  | Op.preempt c => (lastSwitch c s.trace).join.isSome
  | Op.yield c => (lastSwitch c s.trace).join.isSome
  | Op.terminate c => (lastSwitch c s.trace).join.isSome
  | Op.wake_up p =>
    decide ((s.mem p).state = process_state_t.PROCESS_NEW ∨
      (s.mem p).state = process_state_t.PROCESS_WAITING)

/-- A sequence of calls follows the engine protocol from state `s`: every call
is allowed in the state it is made in, and completes. -/
def follows : List Op → Sched → Bool
  | [], _ => true
  | op :: rest, s =>
    allowed s op &&
      (match step op s with
       | none => false
       | some s1 => follows rest s1)

/-! ## The idle handler and the entry points of the simulator -/

/-- The function `idle` (lines 90-103), taken from the moment
`pthread_cond_wait` returns 0: the wait released and re-acquired
`current_mutex`, the mutex is unlocked, and `schedule(cpu_id)` is called.  The
ready queue is not inspected in between. -/
def idle (cpu_id : Nat) (s : Sched) : Option Sched :=
  schedule cpu_id { s with
    locks := s.locks ++ [LockOp.lock Mutex.current_mutex, LockOp.unlock Mutex.current_mutex,
      LockOp.lock Mutex.current_mutex, LockOp.unlock Mutex.current_mutex] }

/-- One call into the scheduler: a handler call, or `idle` being woken. -/
inductive Entry
  | op (o : Op)
  | idle (cpu_id : Nat)
  deriving DecidableEq

/-- Run one call into the scheduler to completion. -/
def enter (e : Entry) (s : Sched) : Option Sched :=
  match e with
  | Entry.op o => step o s
  | Entry.idle c => idle c s

/-- Run a sequence of calls into the scheduler, each to completion. -/
def runAll : List Entry → Sched → Option Sched
  | [], s => some s
  | e :: rest, s =>
    match enter e s with
    | none => none
    | some s1 => runAll rest s1

/-- A call carries the overhead `v`: if it is a `context_switch`, its third
argument is `v`. -/
def carries (v : Int) (call : Call) : Prop :=
  ∀ c p t, call = Call.context_switch c p t → t = v

/-! ## Lock acquisition order -/

/-- Read a log of mutex operations with the mutexes in `held` already held:
each time a mutex is locked while others are held, the pair (held mutex, newly
locked mutex) is produced. -/
def acquisitions : List Mutex → List LockOp → List (Mutex × Mutex)
  | _, [] => []
  | held, LockOp.lock m :: rest =>
    held.map (fun h => (h, m)) ++ acquisitions (m :: held) rest
  | held, LockOp.unlock m :: rest => acquisitions (held.erase m) rest

/-- The mutex operations a completed call appended to the log. -/
def newLocks (s s' : Sched) : List LockOp :=
  s'.locks.drop s.locks.length

/-! ## Program start -/

/-- The test `isspace` of the C library on a character code. -/
def isspace (c : Char) : Bool :=
  c.toNat = 32 || (9 ≤ c.toNat && c.toNat ≤ 13)

/-- The value of the leading decimal digits of a character sequence. -/
def atoiDigits : List Char → Nat → Nat
  | [], acc => acc
  | c :: rest, acc =>
    if 48 ≤ c.toNat ∧ c.toNat ≤ 57 then atoiDigits rest (10 * acc + (c.toNat - 48)) else acc

/-- The C library function `atoi` with a 32-bit `int`: leading white space is
skipped, an optional sign is read, then the leading decimal digits; no digits
give 0.  A value outside the range of `int` is undefined behaviour (`none`). -/
def atoi (s : String) : Option Int :=
  let cs := s.toList.dropWhile isspace
  let v : Int :=
    match cs with
    | '-' :: rest => - (atoiDigits rest 0 : Int)
    | '+' :: rest => (atoiDigits rest 0 : Int)
    | _ => (atoiDigits cs 0 : Int)
  if -2147483648 ≤ v ∧ v ≤ 2147483647 then some v else none

/-- How `main` ends: by returning a status, or by the failed
`assert(current != NULL)`. -/
inductive Exit
  | returned (status : Int)
  | aborted
  deriving DecidableEq

/-- What `main` did: how it ended, the argument of its call of
`start_simulator` if it made one, and the values it left in the globals
`round_robin_flag` and `cs_runtime`. -/
structure MainResult where
  exit : Exit
  started : Option Int
  round_robin_flag : Int
  cs_runtime : Int
  deriving DecidableEq

/-- The function `main` (lines 196-230) on the argument vector `argv`, with
`argc = argv.length`.  The library function `atoi` and the outcome of
`malloc(sizeof(pcb_t*) * cpu_count)` (`true` when it returns a non-null
pointer) are parameters.  The result is `none` where `argv` is read outside its
bounds or `atoi` is undefined. -/
def main (atoi : String → Option Int) (malloc_ok : Int → Bool) (argv : List String) :
    Option MainResult :=
  if ¬ (argv.length % 2 = 0 ∧ argv.length < 5) then
    some { exit := Exit.returned (-1), started := none, round_robin_flag := 0, cs_runtime := -1 }
  else do
    let a1 ← argv[1]?
    let cpu_count ← atoi a1
    let (flag, cs) ←
      if argv.length > 2 then do
        let a2 ← argv[2]?
        if a2 = "-r" then do
          let a3 ← argv[3]?
          let t ← atoi a3
          pure ((1 : Int), t)
        else pure ((0 : Int), (-1 : Int))
      else pure ((0 : Int), (-1 : Int))
    if malloc_ok cpu_count then
      pure { exit := Exit.returned 0, started := some cpu_count,
             round_robin_flag := flag, cs_runtime := cs }
    else
      pure { exit := Exit.aborted, started := none, round_robin_flag := flag, cs_runtime := cs }

/-- No call of the sequence, started in `s`, enqueues a process that is in the
ready queue at the moment of the call. -/
def freshEnqueues : List Op → Sched → Prop
  | [], _ => True
  | op :: rest, s =>
    (∀ q, isQueue s.mem s.ready q → ∀ p ∈ enqueues s op, p ∉ q) ∧
      (match step op s with
       | none => True
       | some s1 => freshEnqueues rest s1)

/-! ## Invariants of protocol-following runs -/

/-- The invariant except for what concerns the CPU `c`, which is in the middle
of a handler: the ready queue is well formed and holds only READY processes;
when `strict` holds every READY process is queued; every other CPU whose last
`context_switch` named a process holds that process in its slot, in state
RUNNING; and no two other CPUs were last told to run the same process. -/
def PreInv (strict : Prop) (c : Nat) (s : Sched) : Prop :=
  ∃ q, isQueue s.mem s.ready q ∧
    (∀ p ∈ q, (s.mem p).state = process_state_t.PROCESS_READY) ∧
    (strict → ∀ p, (s.mem p).state = process_state_t.PROCESS_READY → p ∈ q) ∧
    (∀ c' P, c' ≠ c → lastSwitch c' s.trace = some (some P) →
      s.current[c']? = some (some P) ∧
        (s.mem P).state = process_state_t.PROCESS_RUNNING) ∧
    (∀ c1 c2 P, c1 ≠ c → c2 ≠ c → lastSwitch c1 s.trace = some (some P) →
      lastSwitch c2 s.trace = some (some P) → c1 = c2)

/-- The invariant between handler calls: the ready queue is well formed and
holds only READY processes; when `strict` holds every READY process is queued;
every CPU whose last `context_switch` named a process holds that process in its
slot, in state RUNNING; and no two CPUs were last told to run the same
process. -/
def Inv (strict : Prop) (s : Sched) : Prop :=
  ∃ q, isQueue s.mem s.ready q ∧
    (∀ p ∈ q, (s.mem p).state = process_state_t.PROCESS_READY) ∧
    (strict → ∀ p, (s.mem p).state = process_state_t.PROCESS_READY → p ∈ q) ∧
    (∀ c P, lastSwitch c s.trace = some (some P) →
      s.current[c]? = some (some P) ∧
        (s.mem P).state = process_state_t.PROCESS_RUNNING) ∧
    (∀ c1 c2 P, lastSwitch c1 s.trace = some (some P) →
      lastSwitch c2 s.trace = some (some P) → c1 = c2)

/-! ## Concrete states -/

/-- A memory of control blocks that have not arrived yet, all of priority 0. -/
def freshMem : Nat → pcb_t :=
  fun _ => { state := process_state_t.PROCESS_NEW, static_priority := 0, next := none }

/-- One CPU, idle; processes 0 and 1 queued in this order. -/
def twoQueued : Sched :=
  { mem := fun a =>
      { state := process_state_t.PROCESS_READY, static_priority := 0,
        next := if a = 0 then some 1 else none }
    current := [none]
    ready := { head := some 0, tail := some 1 }
    round_robin_flag := 0
    cs_runtime := -1
    trace := []
    locks := [] }

/-- One CPU running process 0, the ready queue empty: the state reached from
the initial state by `wake_up(0)` and `schedule(0)`. -/
def runningAlone : Sched :=
  { mem := fun a =>
      { state := if a = 0 then process_state_t.PROCESS_RUNNING
          else process_state_t.PROCESS_NEW,
        static_priority := 0, next := none }
    current := [some 0]
    ready := { head := none, tail := none }
    round_robin_flag := 0
    cs_runtime := -1
    trace := [Call.cond_signal, Call.context_switch 0 (some 0) (-1)]
    locks := [LockOp.lock Mutex.ready_mutex, LockOp.unlock Mutex.ready_mutex,
      LockOp.lock Mutex.ready_mutex, LockOp.lock Mutex.current_mutex,
      LockOp.unlock Mutex.current_mutex, LockOp.unlock Mutex.ready_mutex] }

/-- The state in which `yield(0)`, called in `runningAlone`, calls
`schedule(0)`: process 0 is WAITING and still in `current[0]`, the ready queue
is empty. -/
def yieldedAlone : Sched :=
  { runningAlone with
    mem := setState runningAlone.mem 0 process_state_t.PROCESS_WAITING
    locks := runningAlone.locks ++
      [LockOp.lock Mutex.current_mutex, LockOp.unlock Mutex.current_mutex] }

/-- Two CPUs running process 0 (priority `p0`) and process 1 (priority `p1`),
the ready queue empty, process 2 (priority `p2`) waiting for I/O. -/
def twoBusy (p0 p1 p2 : Nat) : Sched :=
  { mem := fun a =>
      { state := if a < 2 then process_state_t.PROCESS_RUNNING
          else process_state_t.PROCESS_WAITING,
        static_priority := if a = 0 then p0 else if a = 1 then p1 else p2,
        next := none }
    current := [some 0, some 1]
    ready := { head := none, tail := none }
    round_robin_flag := 0
    cs_runtime := -1
    trace := [Call.context_switch 0 (some 0) (-1), Call.context_switch 1 (some 1) (-1)]
    locks := [] }

/-- One CPU running process 2, processes 0 and 1 queued in this order. -/
def busyQueued : Sched :=
  { mem := fun a =>
      { state := if a = 2 then process_state_t.PROCESS_RUNNING
          else process_state_t.PROCESS_READY,
        static_priority := 0,
        next := if a = 0 then some 1 else none }
    current := [some 2]
    ready := { head := some 0, tail := some 1 }
    round_robin_flag := 1
    cs_runtime := 4
    trace := [Call.context_switch 0 (some 2) 4]
    locks := [] }

/-! ## Memory lemmas -/

@[simp] theorem setState_state (mem : Nat → pcb_t) (p a : Nat) (st : process_state_t) :
    (setState mem p st a).state = if a = p then st else (mem a).state := by
  unfold setState; split <;> rfl

@[simp] theorem setState_next (mem : Nat → pcb_t) (p a : Nat) (st : process_state_t) :
    (setState mem p st a).next = (mem a).next := by
  unfold setState; split <;> rfl

@[simp] theorem setState_priority (mem : Nat → pcb_t) (p a : Nat) (st : process_state_t) :
    (setState mem p st a).static_priority = (mem a).static_priority := by
  unfold setState; split <;> rfl

@[simp] theorem setNext_state (mem : Nat → pcb_t) (p a : Nat) (n : Option Nat) :
    (setNext mem p n a).state = (mem a).state := by
  unfold setNext; split <;> rfl

@[simp] theorem setNext_next (mem : Nat → pcb_t) (p a : Nat) (n : Option Nat) :
    (setNext mem p n a).next = if a = p then n else (mem a).next := by
  unfold setNext; split <;> rfl

@[simp] theorem setNext_priority (mem : Nat → pcb_t) (p a : Nat) (n : Option Nat) :
    (setNext mem p n a).static_priority = (mem a).static_priority := by
  unfold setNext; split <;> rfl

/-! ## Lemmas on the linked representation -/

/-- Writing a state field does not disturb the links. -/
theorem linked_setState (mem : Nat → pcb_t) (tail : Option Nat) (x : Nat)
    (st : process_state_t) (l : List Nat) (p : Nat) :
    linked (setState mem x st) tail p l ↔ linked mem tail p l := by
  induction l generalizing p with
  | nil => simp [linked]
  | cons n rest ih => simp [linked, ih]

/-- The tail pointer names a cell of the list. -/
theorem linked_tail_mem (mem : Nat → pcb_t) (t : Nat) (l : List Nat) (p : Nat)
    (h : linked mem (some t) p l) : t ∈ p :: l := by
  induction l generalizing p with
  | nil =>
    simp only [linked, Option.some.injEq] at h
    simp [h]
  | cons n rest ih =>
    exact List.mem_cons_of_mem _ (ih n h.2)

/-- A linked list always has a tail cell. -/
theorem linked_tail_some (mem : Nat → pcb_t) (tail : Option Nat) (l : List Nat) (p : Nat)
    (h : linked mem tail p l) : ∃ t, tail = some t := by
  induction l generalizing p with
  | nil => exact ⟨p, h⟩
  | cons n rest ih => exact ih n h.2

/-- Linking a new cell behind the tail cell appends it to the list. -/
theorem linked_setNext (mem : Nat → pcb_t) (t x : Nat) (l : List Nat) (p : Nat)
    (h : linked mem (some t) p l) (hnd : (p :: l).Nodup) :
    linked (setNext mem t (some x)) (some x) p (l ++ [x]) := by
  induction l generalizing p with
  | nil =>
    simp only [linked, Option.some.injEq] at h
    simp [linked, h]
  | cons n rest ih =>
    have hp : p ∉ n :: rest := (List.nodup_cons.mp hnd).1
    have ht : t ∈ n :: rest := linked_tail_mem mem t rest n h.2
    have hpt : p ≠ t := fun e => hp (e ▸ ht)
    refine ⟨?_, ih n h.2 (List.nodup_cons.mp hnd).2⟩
    simp [hpt, h.1]

/-- Enqueueing into an empty queue (the `head == NULL` branch). -/
theorem isQueue_enqueue_nil (mem : Nat → pcb_t) (x : Nat) :
    isQueue mem { head := some x, tail := some x } [x] := by
  simp [isQueue, linked]

/-- Enqueueing behind the tail (the `else` branch). -/
theorem isQueue_enqueue_cons (mem : Nat → pcb_t) (ready : Queue) (h : Nat) (l : List Nat)
    (x : Nat) (st : process_state_t) (hq : isQueue mem ready (h :: l)) (hx : x ∉ h :: l) :
    ∃ t, ready.tail = some t ∧
      isQueue (setNext (setState mem x st) t (some x)) { head := ready.head, tail := some x }
        (h :: l ++ [x]) := by
  obtain ⟨hh, hl, hnd⟩ := hq
  obtain ⟨t, ht⟩ := linked_tail_some mem ready.tail l h hl
  refine ⟨t, ht, hh, ?_, ?_⟩
  · apply linked_setNext _ _ _ _ _ _ hnd
    rw [linked_setState, ← ht]
    exact hl
  · show ((h :: l) ++ [x]).Nodup
    rw [List.nodup_append]
    refine ⟨hnd, List.nodup_singleton x, ?_⟩
    intro a ha hax
    simp only [List.mem_singleton] at hax
    exact hx (hax ▸ ha)

/-- Dequeueing the head of a queue with one cell (the `head == tail` branch). -/
theorem isQueue_single (mem : Nat → pcb_t) (ready : Queue) (p : Nat)
    (hq : isQueue mem ready [p]) : ready.head = some p ∧ ready.tail = some p := by
  obtain ⟨hh, hl, _⟩ := hq
  exact ⟨hh, hl⟩

/-- Dequeueing the head of a longer queue (the `else` branch): head and tail
differ, and the successor of the head starts the rest. -/
theorem isQueue_cons_cons (mem : Nat → pcb_t) (ready : Queue) (p n : Nat) (rest : List Nat)
    (st : process_state_t) (hq : isQueue mem ready (p :: n :: rest)) :
    ready.head = some p ∧ ready.head ≠ ready.tail ∧ (mem p).next = some n ∧
      isQueue (setState mem p st) { head := some n, tail := ready.tail } (n :: rest) := by
  obtain ⟨hh, hl, hnd⟩ := hq
  obtain ⟨t, ht⟩ := linked_tail_some mem ready.tail (n :: rest) p hl
  have htm : t ∈ n :: rest := linked_tail_mem mem t rest n (ht ▸ hl.2)
  have hp : p ∉ n :: rest := (List.nodup_cons.mp hnd).1
  refine ⟨hh, ?_, hl.1, rfl, ?_, (List.nodup_cons.mp hnd).2⟩
  · rw [hh, ht]
    intro e
    exact hp ((Option.some.inj e) ▸ htm)
  · rw [linked_setState]
    exact hl.2

/-! ## What each handler does to a well-formed queue -/

/-- Dispatch with an empty queue: only the idle context switch is issued. -/
theorem schedule_nil (cpu_id : Nat) (s : Sched) (hq : isQueue s.mem s.ready []) :
    schedule cpu_id s =
      some { s with trace := s.trace ++ [Call.context_switch cpu_id none s.cs_runtime] } := by
  unfold schedule
  rw [hq.1]

/-- Dispatch with a non-empty queue. -/
theorem schedule_cons (cpu_id : Nat) (s : Sched) (p : Nat) (q : List Nat)
    (hq : isQueue s.mem s.ready (p :: q)) (hc : cpu_id < s.current.length) :
    ∃ s', schedule cpu_id s = some s' ∧ isQueue s'.mem s'.ready q ∧
      s'.mem = setState s.mem p process_state_t.PROCESS_RUNNING ∧
      s'.current = s.current.set cpu_id (some p) ∧
      s'.trace = s.trace ++ [Call.context_switch cpu_id (some p) s.cs_runtime] ∧
      s'.cs_runtime = s.cs_runtime := by
  cases q with
  | nil =>
    obtain ⟨hh, ht⟩ := isQueue_single _ _ _ hq
    have hs : schedule cpu_id s = some { s with
        mem := setState s.mem p process_state_t.PROCESS_RUNNING
        ready := { head := none, tail := none }
        current := s.current.set cpu_id (some p)
        locks := s.locks ++ [LockOp.lock Mutex.ready_mutex, LockOp.lock Mutex.current_mutex,
          LockOp.unlock Mutex.current_mutex, LockOp.unlock Mutex.ready_mutex]
        trace := s.trace ++ [Call.context_switch cpu_id (some p) s.cs_runtime] } := by
      unfold schedule
      rw [hh]
      simp [hc, ht]
    exact ⟨_, hs, ⟨rfl, rfl⟩, rfl, rfl, rfl, rfl⟩
  | cons n rest =>
    obtain ⟨hh, hne, hn, hq'⟩ :=
      isQueue_cons_cons _ _ _ _ _ process_state_t.PROCESS_RUNNING hq
    have hs : schedule cpu_id s = some { s with
        mem := setState s.mem p process_state_t.PROCESS_RUNNING
        ready := { head := some n, tail := s.ready.tail }
        current := s.current.set cpu_id (some p)
        locks := s.locks ++ [LockOp.lock Mutex.ready_mutex, LockOp.lock Mutex.current_mutex,
          LockOp.unlock Mutex.current_mutex, LockOp.unlock Mutex.ready_mutex]
        trace := s.trace ++ [Call.context_switch cpu_id (some p) s.cs_runtime] } := by
      rw [hh] at hne
      unfold schedule
      rw [hh]
      simp [hc, hne, hn]
    exact ⟨_, hs, hq', rfl, rfl, rfl, rfl⟩

/-- Wake-up appends the process behind a queue that does not hold it. -/
theorem wake_up_spec (P : Nat) (s : Sched) (q : List Nat)
    (hq : isQueue s.mem s.ready q) (hP : P ∉ q) :
    ∃ s', wake_up P s = some s' ∧ isQueue s'.mem s'.ready (q ++ [P]) ∧
      (∀ a, (s'.mem a).state =
        if a = P then process_state_t.PROCESS_READY else (s.mem a).state) ∧
      (∀ a, (s'.mem a).static_priority = (s.mem a).static_priority) ∧
      s'.current = s.current ∧
      s'.trace = s.trace ++ [Call.cond_signal] ∧
      s'.cs_runtime = s.cs_runtime := by
  cases q with
  | nil =>
    have hs : wake_up P s = some { s with
        mem := setState s.mem P process_state_t.PROCESS_READY
        ready := { head := some P, tail := some P }
        locks := s.locks ++ [LockOp.lock Mutex.ready_mutex, LockOp.unlock Mutex.ready_mutex]
        trace := s.trace ++ [Call.cond_signal] } := by
      unfold wake_up
      rw [hq.1]
    refine ⟨_, hs, isQueue_enqueue_nil _ P, ?_, ?_, rfl, rfl, rfl⟩
    · intro a; simp
    · intro a; simp
  | cons h l =>
    obtain ⟨t, ht, hq'⟩ :=
      isQueue_enqueue_cons _ _ h l P process_state_t.PROCESS_READY hq hP
    have hs : wake_up P s = some { s with
        mem := setNext (setState s.mem P process_state_t.PROCESS_READY) t (some P)
        ready := { head := s.ready.head, tail := some P }
        locks := s.locks ++ [LockOp.lock Mutex.ready_mutex, LockOp.unlock Mutex.ready_mutex]
        trace := s.trace ++ [Call.cond_signal] } := by
      unfold wake_up
      simp only [ht]
      rw [hq.1]
    refine ⟨_, hs, hq', ?_, ?_, rfl, rfl, rfl⟩
    · intro a; simp
    · intro a; simp

/-- Wake-up on a well-formed queue completes, touches no slot and issues only
the signal on the idle condition. -/
theorem wake_up_trace (P : Nat) (s : Sched) (q : List Nat)
    (hq : isQueue s.mem s.ready q) :
    ∃ s', wake_up P s = some s' ∧ s'.current = s.current ∧
      s'.trace = s.trace ++ [Call.cond_signal] := by
  cases q with
  | nil =>
    refine ⟨{ s with
        mem := setState s.mem P process_state_t.PROCESS_READY
        ready := { head := some P, tail := some P }
        locks := s.locks ++ [LockOp.lock Mutex.ready_mutex, LockOp.unlock Mutex.ready_mutex]
        trace := s.trace ++ [Call.cond_signal] }, ?_, rfl, rfl⟩
    unfold wake_up
    rw [hq.1]
  | cons h l =>
    obtain ⟨t, ht⟩ := linked_tail_some _ _ _ _ hq.2.1
    refine ⟨{ s with
        mem := setNext (setState s.mem P process_state_t.PROCESS_READY) t (some P)
        ready := { head := s.ready.head, tail := some P }
        locks := s.locks ++ [LockOp.lock Mutex.ready_mutex, LockOp.unlock Mutex.ready_mutex]
        trace := s.trace ++ [Call.cond_signal] }, ?_, rfl, rfl⟩
    unfold wake_up
    simp only [ht]
    rw [hq.1]

/-- Preemption appends the running process and dispatches the head of the
extended queue. -/
theorem preempt_spec (cpu_id : Nat) (s : Sched) (P : Nat) (q : List Nat)
    (hcur : s.current[cpu_id]? = some (some P))
    (hq : isQueue s.mem s.ready q) (hP : P ∉ q) :
    ∃ s' H t, preempt cpu_id s = some s' ∧ q ++ [P] = H :: t ∧
      isQueue s'.mem s'.ready t ∧
      (∀ a, (s'.mem a).state =
        if a = H then process_state_t.PROCESS_RUNNING
        else if a = P then process_state_t.PROCESS_READY else (s.mem a).state) ∧
      s'.current = s.current.set cpu_id (some H) ∧
      s'.trace = s.trace ++ [Call.context_switch cpu_id (some H) s.cs_runtime] ∧
      s'.cs_runtime = s.cs_runtime := by
  have hc : cpu_id < s.current.length := by
    by_contra hlt
    rw [List.getElem?_eq_none (Nat.le_of_not_lt hlt)] at hcur
    exact Option.noConfusion hcur
  cases q with
  | nil =>
    obtain ⟨s', hs, hq', hm, hcu, htr, hcs⟩ :=
      schedule_cons cpu_id
        { s with
          mem := setState s.mem P process_state_t.PROCESS_READY
          ready := { head := some P, tail := some P }
          locks := s.locks ++ [LockOp.lock Mutex.current_mutex, LockOp.lock Mutex.ready_mutex,
            LockOp.unlock Mutex.ready_mutex, LockOp.unlock Mutex.current_mutex] }
        P [] (isQueue_enqueue_nil _ P) hc
    refine ⟨s', P, [], ?_, rfl, hq', ?_, hcu, htr, hcs⟩
    · unfold preempt
      rw [hcur, hq.1]
      exact hs
    · intro a
      rw [hm]
      simp
  | cons h l =>
    obtain ⟨t, ht, hq1⟩ :=
      isQueue_enqueue_cons _ _ h l P process_state_t.PROCESS_READY hq hP
    obtain ⟨s', hs, hq', hm, hcu, htr, hcs⟩ :=
      schedule_cons cpu_id
        { s with
          mem := setNext (setState s.mem P process_state_t.PROCESS_READY) t (some P)
          ready := { head := s.ready.head, tail := some P }
          locks := s.locks ++ [LockOp.lock Mutex.current_mutex, LockOp.lock Mutex.ready_mutex,
            LockOp.unlock Mutex.ready_mutex, LockOp.unlock Mutex.current_mutex] }
        h (l ++ [P]) hq1 hc
    refine ⟨s', h, l ++ [P], ?_, rfl, hq', ?_, hcu, htr, hcs⟩
    · unfold preempt
      simp only [hcur, ht]
      rw [hq.1] at hs ⊢
      exact hs
    · intro a
      rw [hm]
      simp

/-! ## Dispatch order -/

theorem dispatched_append (a b : List Call) :
    dispatched (a ++ b) = dispatched a ++ dispatched b := by
  induction a with
  | nil => rfl
  | cons c rest ih =>
    cases c with
    | context_switch cpu pcb t =>
      cases pcb with
      | none => simpa [dispatched] using ih
      | some p => simpa [dispatched] using ih
    | force_preempt cpu => simpa [dispatched] using ih
    | cond_signal => simpa [dispatched] using ih

/-- Writing a state field does not disturb the queue. -/
theorem isQueue_setState (mem : Nat → pcb_t) (ready : Queue) (x : Nat)
    (st : process_state_t) (l : List Nat) :
    isQueue (setState mem x st) ready l ↔ isQueue mem ready l := by
  cases l with
  | nil => simp [isQueue]
  | cons p rest => simp [isQueue, linked_setState]

/-- A completed `schedule` call dispatches the head of the queue, if any. -/
theorem schedule_fifo (cpu_id : Nat) (s s1 : Sched) (q : List Nat)
    (hq : isQueue s.mem s.ready q) (h : schedule cpu_id s = some s1) :
    ∃ d q1, isQueue s1.mem s1.ready q1 ∧
      dispatched s1.trace = dispatched s.trace ++ d ∧ d ++ q1 = q := by
  cases q with
  | nil =>
    rw [schedule_nil cpu_id s hq] at h
    cases h
    refine ⟨[], [], hq, ?_, rfl⟩
    simp [dispatched_append, dispatched]
  | cons p t =>
    have hc : cpu_id < s.current.length := by
      by_contra hlt
      unfold schedule at h
      rw [hq.1] at h
      simp [hlt] at h
    obtain ⟨s', hs, hq', _, _, htr, _⟩ := schedule_cons cpu_id s p t hq hc
    rw [hs] at h
    cases h
    refine ⟨[p], t, hq', ?_, rfl⟩
    rw [htr]
    simp [dispatched_append, dispatched]

/-- A completed `yield` found a process in the slot and went on to dispatch. -/
theorem yield_some (cpu_id : Nat) (s s1 : Sched) (h : yield cpu_id s = some s1) :
    ∃ P, s.current[cpu_id]? = some (some P) ∧
      schedule cpu_id { s with
        mem := setState s.mem P process_state_t.PROCESS_WAITING
        locks := s.locks ++
          [LockOp.lock Mutex.current_mutex, LockOp.unlock Mutex.current_mutex] } = some s1 := by
  unfold yield at h
  split at h
  · exact Option.noConfusion h
  · exact Option.noConfusion h
  · next cur hcur => exact ⟨cur, hcur, h⟩

/-- A completed `terminate` found a process in the slot and went on to
dispatch. -/
theorem terminate_some (cpu_id : Nat) (s s1 : Sched) (h : terminate cpu_id s = some s1) :
    ∃ P, s.current[cpu_id]? = some (some P) ∧
      schedule cpu_id { s with
        mem := setState s.mem P process_state_t.PROCESS_TERMINATED
        locks := s.locks ++
          [LockOp.lock Mutex.current_mutex, LockOp.unlock Mutex.current_mutex] } = some s1 := by
  unfold terminate at h
  split at h
  · exact Option.noConfusion h
  · exact Option.noConfusion h
  · next cur hcur => exact ⟨cur, hcur, h⟩

/-- A completed `preempt` found a process in the slot. -/
theorem preempt_some (cpu_id : Nat) (s s1 : Sched) (h : preempt cpu_id s = some s1) :
    ∃ P, s.current[cpu_id]? = some (some P) := by
  unfold preempt at h
  split at h
  · exact Option.noConfusion h
  · exact Option.noConfusion h
  · next cur hcur => exact ⟨cur, hcur⟩

/-- One completed handler call keeps the queue well formed; what it dispatches,
followed by the queue it leaves, is the old queue followed by what it
enqueued. -/
theorem step_fifo (op : Op) (s s1 : Sched) (q : List Nat)
    (hq : isQueue s.mem s.ready q) (hfresh : (q ++ enqueues s op).Nodup)
    (h : step op s = some s1) :
    ∃ d q1, isQueue s1.mem s1.ready q1 ∧
      dispatched s1.trace = dispatched s.trace ++ d ∧ d ++ q1 = q ++ enqueues s op := by
  cases op with
  | schedule c =>
    simpa [enqueues] using schedule_fifo c s s1 q hq h
  | yield c =>
    obtain ⟨P, _, hs⟩ := yield_some c s s1 h
    simpa [enqueues] using
      schedule_fifo c _ s1 q ((isQueue_setState _ _ _ _ _).mpr hq) hs
  | terminate c =>
    obtain ⟨P, _, hs⟩ := terminate_some c s s1 h
    simpa [enqueues] using
      schedule_fifo c _ s1 q ((isQueue_setState _ _ _ _ _).mpr hq) hs
  | wake_up p =>
    have hp : p ∉ q := by
      intro hmem
      have := (List.nodup_append.mp hfresh).2.2
      exact this hmem (by simp [enqueues])
    obtain ⟨s', hs, hq', _, _, _, htr, _⟩ := wake_up_spec p s q hq hp
    have h' : wake_up p s = some s1 := h
    rw [hs] at h'
    cases h'
    refine ⟨[], q ++ [p], hq', ?_, ?_⟩
    · rw [htr]
      simp [dispatched_append, dispatched]
    · simp [enqueues]
  | preempt c =>
    have h' : preempt c s = some s1 := h
    obtain ⟨P, hcur⟩ := preempt_some c s s1 h'
    have henq : enqueues s (Op.preempt c) = [P] := by simp [enqueues, hcur]
    rw [henq] at hfresh ⊢
    have hp : P ∉ q := by
      intro hmem
      exact (List.nodup_append.mp hfresh).2.2 hmem (by simp)
    obtain ⟨s', H, t, hs, hHt, hq', _, _, htr, _⟩ := preempt_spec c s P q hcur hq hp
    rw [hs] at h'
    cases h'
    refine ⟨[H], t, hq', ?_, ?_⟩
    · rw [htr]
      simp [dispatched_append, dispatched]
    · rw [hHt]; rfl

/-- The same over a whole sequence of completed handler calls. -/
theorem run_fifo (ops : List Op) (s s' : Sched) (q : List Nat)
    (hq : isQueue s.mem s.ready q) (hfresh : (q ++ enqueuedBy ops s).Nodup)
    (hrun : run ops s = some s') :
    ∃ d q', isQueue s'.mem s'.ready q' ∧
      dispatched s'.trace = dispatched s.trace ++ d ∧ d ++ q' = q ++ enqueuedBy ops s := by
  induction ops generalizing s q with
  | nil =>
    simp only [run, Option.some.injEq] at hrun
    subst hrun
    exact ⟨[], q, hq, by simp, by simp [enqueuedBy]⟩
  | cons op rest ih =>
    simp only [run] at hrun
    cases hstep : step op s with
    | none =>
      rw [hstep] at hrun
      exact Option.noConfusion hrun
    | some s1 =>
      rw [hstep] at hrun
      simp only [enqueuedBy, hstep] at hfresh ⊢
      rw [← List.append_assoc] at hfresh
      obtain ⟨d1, q1, hq1, hd1, he1⟩ :=
        step_fifo op s s1 q hq (List.Nodup.of_append_left hfresh) hstep
      rw [← he1, List.append_assoc] at hfresh
      obtain ⟨d2, q2, hq2, hd2, he2⟩ :=
        ih s1 q1 hq1 (List.Nodup.of_append_right hfresh) hrun
      refine ⟨d1 ++ d2, q2, hq2, ?_, ?_⟩
      · rw [hd2, hd1, List.append_assoc]
      · rw [List.append_assoc, he2, ← List.append_assoc, he1, List.append_assoc]

/-- Running two sequences of calls one after the other. -/
theorem run_append (a b : List Op) (s : Sched) :
    run (a ++ b) s = (run a s).bind (run b) := by
  induction a generalizing s with
  | nil => rfl
  | cons op rest ih =>
    simp only [List.cons_append, run]
    cases step op s with
    | none => rfl
    | some s1 => exact ih s1

/-- Waking up distinct processes that are not queued always completes and
appends them to the queue in the order of the calls. -/
theorem run_wake_ups (ps : List Nat) (s : Sched) (q : List Nat)
    (hq : isQueue s.mem s.ready q) (hnd : (q ++ ps).Nodup) :
    ∃ s', run (ps.map Op.wake_up) s = some s' ∧ isQueue s'.mem s'.ready (q ++ ps) ∧
      s'.current = s.current ∧ dispatched s'.trace = dispatched s.trace := by
  induction ps generalizing s q with
  | nil => exact ⟨s, rfl, by simpa using hq, rfl, rfl⟩
  | cons p rest ih =>
    have hp : p ∉ q := by
      intro hmem
      exact (List.nodup_append.mp hnd).2.2 hmem (List.mem_cons_self _ _)
    obtain ⟨s1, hs1, hq1, _, _, hcu1, htr1, _⟩ := wake_up_spec p s q hq hp
    have hnd1 : ((q ++ [p]) ++ rest).Nodup := by simpa using hnd
    obtain ⟨s', hs', hq', hcu', hd'⟩ := ih s1 (q ++ [p]) hq1 hnd1
    refine ⟨s', ?_, by simpa using hq', hcu'.trans hcu1, ?_⟩
    · simp only [List.map_cons, run, step, hs1]
      exact hs'
    · rw [hd', htr1]
      simp [dispatched_append, dispatched]

/-- Successive `schedule` calls on CPUs of the table always complete and
dispatch the processes of the queue from the head on, one per call, until the
queue is empty. -/
theorem run_schedules (cpus : List Nat) (s : Sched) (q : List Nat)
    (hq : isQueue s.mem s.ready q) (hc : ∀ c ∈ cpus, c < s.current.length) :
    ∃ s', run (cpus.map Op.schedule) s = some s' ∧
      isQueue s'.mem s'.ready (q.drop cpus.length) ∧
      dispatched s'.trace = dispatched s.trace ++ q.take cpus.length := by
  induction cpus generalizing s q with
  | nil => exact ⟨s, rfl, by simpa using hq, by simp⟩
  | cons c rest ih =>
    cases q with
    | nil =>
      obtain ⟨s', hs', hq', hd'⟩ :=
        ih { s with trace := s.trace ++ [Call.context_switch c none s.cs_runtime] } [] hq
          (fun c' hc' => hc c' (List.mem_cons_of_mem _ hc'))
      refine ⟨s', ?_, by simpa using hq', ?_⟩
      · simp only [List.map_cons, run, step, schedule_nil c s hq]
        exact hs'
      · rw [hd']
        simp [dispatched_append, dispatched]
    | cons p t =>
      obtain ⟨s1, hs1, hq1, _, hcu1, htr1, _⟩ :=
        schedule_cons c s p t hq (hc c (List.mem_cons_self _ _))
      obtain ⟨s', hs', hq', hd'⟩ :=
        ih s1 t hq1 (fun c' hc' => by
          rw [hcu1, List.length_set]
          exact hc c' (List.mem_cons_of_mem _ hc'))
      refine ⟨s', ?_, by simpa using hq', ?_⟩
      · simp only [List.map_cons, run, step, hs1]
        exact hs'
      · rw [hd', htr1]
        simp [dispatched_append, dispatched]

/-- Wake-ups followed by dispatches: the calls always complete, and the
processes dispatched are those of the old queue followed by the woken ones, in
the order they were enqueued. -/
theorem wake_then_schedule (ps cpus : List Nat) (s : Sched) (q : List Nat)
    (hq : isQueue s.mem s.ready q) (hnd : (q ++ ps).Nodup)
    (hc : ∀ c ∈ cpus, c < s.current.length) :
    ∃ s', run (ps.map Op.wake_up ++ cpus.map Op.schedule) s = some s' ∧
      isQueue s'.mem s'.ready ((q ++ ps).drop cpus.length) ∧
      dispatched s'.trace = dispatched s.trace ++ (q ++ ps).take cpus.length := by
  obtain ⟨s1, hs1, hq1, hcu1, hd1⟩ := run_wake_ups ps s q hq hnd
  obtain ⟨s', hs', hq', hd'⟩ := run_schedules cpus s1 (q ++ ps) hq1 (by rwa [hcu1])
  refine ⟨s', ?_, hq', by rw [hd', hd1]⟩
  rw [run_append, hs1]
  exact hs'

/-! ## Effects of one call on an arbitrary state -/

/-- What a completed `schedule` call may touch, in any state. -/
theorem schedule_frame (c : Nat) (s s' : Sched) (h : schedule c s = some s') :
    s'.cs_runtime = s.cs_runtime ∧
      (∃ x, s'.trace = s.trace ++ [Call.context_switch c x s.cs_runtime]) ∧
      (∀ c', c' ≠ c → s'.current[c']? = s.current[c']?) ∧
      (∀ a, s.ready.head ≠ some a → (s'.mem a).state = (s.mem a).state) := by
  cases hh : s.ready.head with
  | none =>
    simp only [schedule, hh] at h
    cases h
    exact ⟨rfl, ⟨none, rfl⟩, fun _ _ => rfl, fun _ _ => rfl⟩
  | some temp =>
    by_cases hc : c < s.current.length
    · simp only [schedule, hh, hc, if_true] at h
      cases h
      refine ⟨rfl, ⟨some temp, rfl⟩, ?_, ?_⟩
      · intro c' hc'
        exact List.getElem?_set_ne (Ne.symm hc')
      · intro a ha
        have : a ≠ temp := fun e => ha (by rw [e])
        simp [this]
    · simp [schedule, hh, hc] at h

/-- What a completed `wake_up` call may touch, in any state. -/
theorem wake_up_frame (P : Nat) (s s' : Sched) (h : wake_up P s = some s') :
    s'.cs_runtime = s.cs_runtime ∧ s'.trace = s.trace ++ [Call.cond_signal] ∧
      s'.current = s.current ∧
      (∀ a, a ≠ P → (s'.mem a).state = (s.mem a).state) := by
  unfold wake_up at h
  split at h
  · cases h
    refine ⟨rfl, rfl, rfl, ?_⟩
    intro a ha
    simp [ha]
  · split at h
    · exact Option.noConfusion h
    · cases h
      refine ⟨rfl, rfl, rfl, ?_⟩
      intro a ha
      simp [ha]

/-- A completed `preempt` is a store into the control block held by the slot
followed by `schedule` on a state whose queue head is the old head, or the
preempted process when the queue was empty. -/
theorem preempt_mid (c : Nat) (s s' : Sched) (h : preempt c s = some s') :
    ∃ P mid, s.current[c]? = some (some P) ∧ schedule c mid = some s' ∧
      mid.current = s.current ∧ mid.trace = s.trace ∧ mid.cs_runtime = s.cs_runtime ∧
      (mid.ready.head = s.ready.head ∨ mid.ready.head = some P) ∧
      (∀ a, (mid.mem a).state =
        if a = P then process_state_t.PROCESS_READY else (s.mem a).state) := by
  unfold preempt at h
  split at h
  · exact Option.noConfusion h
  · exact Option.noConfusion h
  · next cur hcur =>
    simp only at h
    split at h
    · exact ⟨cur, _, hcur, h, rfl, rfl, rfl, Or.inr rfl, fun a => by simp⟩
    · split at h
      · exact Option.noConfusion h
      · exact ⟨cur, _, hcur, h, rfl, rfl, rfl, Or.inl rfl, fun a => by simp⟩

/-- What a completed `schedule`, `preempt`, `yield` or `terminate` call for
`c` may touch, in any state. -/
theorem cpu_handler_frame (c : Nat) (s s' : Sched)
    (h : schedule c s = some s' ∨ preempt c s = some s' ∨ yield c s = some s' ∨
      terminate c s = some s') :
    s'.cs_runtime = s.cs_runtime ∧
      (∃ x, s'.trace = s.trace ++ [Call.context_switch c x s.cs_runtime]) ∧
      (∀ c', c' ≠ c → s'.current[c']? = s.current[c']?) ∧
      (∀ a, s.current[c]? ≠ some (some a) → s.ready.head ≠ some a →
        (s'.mem a).state = (s.mem a).state) := by
  rcases h with h | h | h | h
  · obtain ⟨h1, h2, h3, h4⟩ := schedule_frame c s s' h
    exact ⟨h1, h2, h3, fun a _ ha => h4 a ha⟩
  · obtain ⟨P, mid, hcur, hs, hmc, hmt, hmr, hhead, hst⟩ := preempt_mid c s s' h
    obtain ⟨h1, ⟨x, h2⟩, h3, h4⟩ := schedule_frame c mid s' hs
    refine ⟨h1.trans hmr, ⟨x, by rw [h2, hmt, hmr]⟩, ?_, ?_⟩
    · intro c' hc'
      rw [h3 c' hc', hmc]
    · intro a hacur hahead
      have haP : a ≠ P := fun e => hacur (by rw [e]; exact hcur)
      have hmid : mid.ready.head ≠ some a := by
        rcases hhead with hh | hh
        · rw [hh]; exact hahead
        · rw [hh]; exact fun e => haP (Option.some.inj e).symm
      rw [h4 a hmid, hst a, if_neg haP]
  · obtain ⟨P, hcur, hs⟩ := yield_some c s s' h
    obtain ⟨h1, h2, h3, h4⟩ := schedule_frame c _ s' hs
    refine ⟨h1, h2, h3, ?_⟩
    intro a hacur hahead
    have haP : a ≠ P := fun e => hacur (by rw [e]; exact hcur)
    rw [h4 a hahead]
    simp [haP]
  · obtain ⟨P, hcur, hs⟩ := terminate_some c s s' h
    obtain ⟨h1, h2, h3, h4⟩ := schedule_frame c _ s' hs
    refine ⟨h1, h2, h3, ?_⟩
    intro a hacur hahead
    have haP : a ≠ P := fun e => hacur (by rw [e]; exact hcur)
    rw [h4 a hahead]
    simp [haP]

/-- Every call into the scheduler leaves `cs_runtime` alone and appends to the
trace only calls that carry it. -/
theorem enter_calls (e : Entry) (s s' : Sched) (h : enter e s = some s') :
    s'.cs_runtime = s.cs_runtime ∧
      ∃ ev, s'.trace = s.trace ++ ev ∧ ∀ call ∈ ev, carries s.cs_runtime call := by
  have key : ∀ c, (∃ x, s'.trace = s.trace ++ [Call.context_switch c x s.cs_runtime]) →
      ∃ ev, s'.trace = s.trace ++ ev ∧ ∀ call ∈ ev, carries s.cs_runtime call := by
    rintro c ⟨x, hx⟩
    refine ⟨_, hx, ?_⟩
    intro call hcall c' p t heq
    rw [List.mem_singleton] at hcall
    rw [hcall] at heq
    cases heq
    rfl
  cases e with
  | idle c =>
    obtain ⟨h1, h2, _, _⟩ := schedule_frame c _ s' h
    exact ⟨h1, key c h2⟩
  | op o =>
    cases o with
    | schedule c =>
      obtain ⟨h1, h2, _, _⟩ := cpu_handler_frame c s s' (Or.inl h)
      exact ⟨h1, key c h2⟩
    | preempt c =>
      obtain ⟨h1, h2, _, _⟩ := cpu_handler_frame c s s' (Or.inr (Or.inl h))
      exact ⟨h1, key c h2⟩
    | yield c =>
      obtain ⟨h1, h2, _, _⟩ := cpu_handler_frame c s s' (Or.inr (Or.inr (Or.inl h)))
      exact ⟨h1, key c h2⟩
    | terminate c =>
      obtain ⟨h1, h2, _, _⟩ := cpu_handler_frame c s s' (Or.inr (Or.inr (Or.inr h)))
      exact ⟨h1, key c h2⟩
    | wake_up P =>
      obtain ⟨h1, h2, _, _⟩ := wake_up_frame P s s' h
      refine ⟨h1, _, h2, ?_⟩
      intro call hcall c' p t heq
      rw [List.mem_singleton] at hcall
      rw [hcall] at heq
      cases heq

/-- The same over a sequence of calls into the scheduler. -/
theorem runAll_calls (es : List Entry) (s s' : Sched) (h : runAll es s = some s') :
    s'.cs_runtime = s.cs_runtime ∧
      ∃ ev, s'.trace = s.trace ++ ev ∧ ∀ call ∈ ev, carries s.cs_runtime call := by
  induction es generalizing s with
  | nil =>
    simp only [runAll, Option.some.injEq] at h
    subst h
    exact ⟨rfl, [], by simp, by simp⟩
  | cons e rest ih =>
    simp only [runAll] at h
    cases he : enter e s with
    | none =>
      rw [he] at h
      exact Option.noConfusion h
    | some s1 =>
      rw [he] at h
      obtain ⟨h1, ev1, ht1, hc1⟩ := enter_calls e s s1 he
      obtain ⟨h2, ev2, ht2, hc2⟩ := ih s1 h
      refine ⟨h2.trans h1, ev1 ++ ev2, by rw [ht2, ht1, List.append_assoc], ?_⟩
      intro call hcall
      rcases List.mem_append.mp hcall with hm | hm
      · exact hc1 call hm
      · rw [← h1]
        exact hc2 call hm

/-! ## The invariant is kept by every allowed call -/

theorem lastSwitch_cons (c : Nat) (a : Call) (rest : List Call) :
    lastSwitch c (a :: rest) =
      match lastSwitch c rest with
      | some r => some r
      | none =>
        match a with
        | Call.context_switch c' pcb _ => if c' = c then some pcb else none
        | _ => none := by
  cases a <;> rfl

theorem lastSwitch_append_switch (c c' : Nat) (x : Option Nat) (t : Int) (tr : List Call) :
    lastSwitch c (tr ++ [Call.context_switch c' x t]) =
      if c' = c then some x else lastSwitch c tr := by
  induction tr with
  | nil =>
    simp only [List.nil_append, lastSwitch]
  | cons a rest ih =>
    simp only [List.cons_append]
    rw [lastSwitch_cons, ih]
    by_cases h : c' = c
    · simp [h]
    · rw [if_neg h, if_neg h, lastSwitch_cons]

theorem lastSwitch_append_signal (c : Nat) (tr : List Call) :
    lastSwitch c (tr ++ [Call.cond_signal]) = lastSwitch c tr := by
  induction tr with
  | nil => simp [lastSwitch]
  | cons a rest ih =>
    simp only [List.cons_append]
    rw [lastSwitch_cons, ih, lastSwitch_cons]

/-- The links determine the list. -/
theorem linked_unique (mem : Nat → pcb_t) (tail : Option Nat) (l1 l2 : List Nat) (p : Nat)
    (h1 : linked mem tail p l1) (h2 : linked mem tail p l2)
    (n1 : (p :: l1).Nodup) (n2 : (p :: l2).Nodup) : l1 = l2 := by
  induction l1 generalizing p l2 with
  | nil =>
    cases l2 with
    | nil => rfl
    | cons n r =>
      have ht : tail = some p := h1
      have : p ∈ n :: r := linked_tail_mem mem p r n (ht ▸ h2.2)
      exact absurd this (List.nodup_cons.mp n2).1
  | cons n r ih =>
    cases l2 with
    | nil =>
      have ht : tail = some p := h2
      have : p ∈ n :: r := linked_tail_mem mem p r n (ht ▸ h1.2)
      exact absurd this (List.nodup_cons.mp n1).1
    | cons n' r' =>
      have hn : n = n' := Option.some.inj (h1.1.symm.trans h2.1)
      subst hn
      rw [ih r' n h1.2 h2.2 (List.nodup_cons.mp n1).2 (List.nodup_cons.mp n2).2]

/-- A queue state is read as one list only. -/
theorem isQueue_unique (mem : Nat → pcb_t) (ready : Queue) (q1 q2 : List Nat)
    (h1 : isQueue mem ready q1) (h2 : isQueue mem ready q2) : q1 = q2 := by
  cases q1 with
  | nil =>
    cases q2 with
    | nil => rfl
    | cons p r => exact absurd (h1.1.symm.trans h2.1) (by simp)
  | cons p r =>
    cases q2 with
    | nil => exact absurd (h2.1.symm.trans h1.1) (by simp)
    | cons p' r' =>
      have hp : p = p' := Option.some.inj (h1.1.symm.trans h2.1)
      subst hp
      rw [linked_unique mem ready.tail r r' p h1.2.1 h2.2.1 h1.2.2 h2.2.2]

/-- Head and tail pointer of a well-formed queue are null together. -/
theorem isQueue_head_tail (mem : Nat → pcb_t) (ready : Queue) (q : List Nat)
    (h : isQueue mem ready q) : ready.head = none ↔ ready.tail = none := by
  cases q with
  | nil => exact ⟨fun _ => h.2, fun _ => h.1⟩
  | cons p r =>
    obtain ⟨t, ht⟩ := linked_tail_some mem ready.tail r p h.2.1
    rw [h.1, ht]
    simp

theorem Inv.pre {strict : Prop} {s : Sched} (h : Inv strict s) (c : Nat) :
    PreInv strict c s := by
  obtain ⟨q, hq, hR, hD, hB, hU⟩ := h
  exact ⟨q, hq, hR, hD, fun c' P _ => hB c' P, fun c1 c2 P _ _ => hU c1 c2 P⟩

/-- The dispatch that ends a handler for `c` establishes the invariant. -/
theorem schedule_inv (strict : Prop) (c : Nat) (s s' : Sched)
    (hpre : PreInv strict c s) (hs : schedule c s = some s') : Inv strict s' := by
  obtain ⟨q, hq, hR, hD, hB, hU⟩ := hpre
  cases q with
  | nil =>
    rw [schedule_nil c s hq] at hs
    cases hs
    refine ⟨[], hq, hR, hD, ?_, ?_⟩
    · intro c1 P h1
      simp only [lastSwitch_append_switch] at h1
      by_cases hc : c = c1
      · simp [hc] at h1
      · rw [if_neg hc] at h1
        exact hB c1 P (Ne.symm hc) h1
    · intro c1 c2 P h1 h2
      simp only [lastSwitch_append_switch] at h1 h2
      by_cases hc1 : c = c1
      · simp [hc1] at h1
      · by_cases hc2 : c = c2
        · simp [hc2] at h2
        · rw [if_neg hc1] at h1
          rw [if_neg hc2] at h2
          exact hU c1 c2 P (Ne.symm hc1) (Ne.symm hc2) h1 h2
  | cons H t =>
    have hc : c < s.current.length := by
      by_contra hlt
      unfold schedule at hs
      rw [hq.1] at hs
      simp [hlt] at hs
    obtain ⟨s1, hs1, hq', hm, hcu, htr, _⟩ := schedule_cons c s H t hq hc
    rw [hs1] at hs
    cases hs
    have hHt : H ∉ t := (List.nodup_cons.mp hq.2.2).1
    have hHR : (s.mem H).state = process_state_t.PROCESS_READY :=
      hR H (List.mem_cons_self _ _)
    have hother : ∀ c1 P, c1 ≠ c → lastSwitch c1 s.trace = some (some P) → P ≠ H := by
      intro c1 P hc1 h1 e
      have := (hB c1 P hc1 h1).2
      rw [e, hHR] at this
      exact process_state_t.noConfusion this
    refine ⟨t, hq', ?_, ?_, ?_, ?_⟩
    · intro p hp
      have hne : p ≠ H := fun e => hHt (e ▸ hp)
      rw [hm]
      simp [hne, hR p (List.mem_cons_of_mem _ hp)]
    · intro hstrict p hp
      rw [hm] at hp
      by_cases hne : p = H
      · simp [hne] at hp
      · simp only [setState_state, if_neg hne] at hp
        rcases List.mem_cons.mp (hD hstrict p hp) with e | hmem
        · exact absurd e hne
        · exact hmem
    · intro c1 P h1
      rw [htr, lastSwitch_append_switch] at h1
      by_cases hc1 : c = c1
      · rw [if_pos hc1] at h1
        have hP : H = P := Option.some.inj (Option.some.inj h1)
        subst hP
        subst hc1
        refine ⟨by rw [hcu]; simp [hc], by rw [hm]; simp⟩
      · rw [if_neg hc1] at h1
        obtain ⟨hb1, hb2⟩ := hB c1 P (Ne.symm hc1) h1
        refine ⟨?_, ?_⟩
        · rw [hcu, List.getElem?_set_ne hc1]
          exact hb1
        · rw [hm]
          simp only [setState_state]
          split
          · rfl
          · exact hb2
    · intro c1 c2 P h1 h2
      rw [htr, lastSwitch_append_switch] at h1 h2
      by_cases hc1 : c = c1
      · by_cases hc2 : c = c2
        · rw [← hc1, ← hc2]
        · rw [if_pos hc1] at h1
          rw [if_neg hc2] at h2
          have hP : H = P := Option.some.inj (Option.some.inj h1)
          exact absurd hP.symm (hother c2 P (Ne.symm hc2) h2)
      · by_cases hc2 : c = c2
        · rw [if_neg hc1] at h1
          rw [if_pos hc2] at h2
          have hP : H = P := Option.some.inj (Option.some.inj h2)
          exact absurd hP.symm (hother c1 P (Ne.symm hc1) h1)
        · rw [if_neg hc1] at h1
          rw [if_neg hc2] at h2
          exact hU c1 c2 P (Ne.symm hc1) (Ne.symm hc2) h1 h2

/-- The protocol test for `preempt`, `yield` and `terminate`. -/
theorem told_of_isSome (c : Nat) (tr : List Call)
    (h : (lastSwitch c tr).join.isSome = true) : ∃ P, lastSwitch c tr = some (some P) := by
  cases hl : lastSwitch c tr with
  | none => rw [hl] at h; exact absurd h (by simp)
  | some x =>
    cases x with
    | none => rw [hl] at h; exact absurd h (by simp)
    | some P => exact ⟨P, rfl⟩

/-- Storing a state other than READY into the process run by `c` leaves the
invariant intact apart from `c`. -/
theorem store_pre (strict : Prop) (c P : Nat) (st : process_state_t) (l : List LockOp)
    (s : Sched) (hst : st ≠ process_state_t.PROCESS_READY) (hinv : Inv strict s)
    (hP : lastSwitch c s.trace = some (some P)) :
    PreInv strict c { s with mem := setState s.mem P st, locks := l } := by
  obtain ⟨q, hq, hR, hD, hB, hU⟩ := hinv
  have hPrun := (hB c P hP).2
  refine ⟨q, (isQueue_setState _ _ _ _ _).mpr hq, ?_, ?_, ?_, ?_⟩
  · intro p hp
    have hne : p ≠ P := by
      intro e
      have := hR p hp
      rw [e, hPrun] at this
      exact process_state_t.noConfusion this
    simp [hne, hR p hp]
  · intro hstrict p hp
    by_cases hne : p = P
    · simp [hne] at hp
      exact absurd hp hst
    · simp only [setState_state, if_neg hne] at hp
      exact hD hstrict p hp
  · intro c' P' hc' h'
    obtain ⟨hb1, hb2⟩ := hB c' P' h'
    refine ⟨hb1, ?_⟩
    have hne : P' ≠ P := fun e => hc' (hU c' c P' h' (e ▸ hP))
    simp [hne, hb2]
  · intro c1 c2 P' _ _ h1 h2
    exact hU c1 c2 P' h1 h2

/-- With the running process not queued, `preempt` is `schedule` on the state
in which that process has been appended to the ready queue. -/
theorem preempt_mid_queue (c : Nat) (s : Sched) (P : Nat) (q : List Nat)
    (hcur : s.current[c]? = some (some P))
    (hq : isQueue s.mem s.ready q) (hP : P ∉ q) :
    ∃ mid, preempt c s = schedule c mid ∧ isQueue mid.mem mid.ready (q ++ [P]) ∧
      mid.current = s.current ∧ mid.trace = s.trace ∧
      (∀ a, (mid.mem a).state =
        if a = P then process_state_t.PROCESS_READY else (s.mem a).state) := by
  cases q with
  | nil =>
    refine ⟨{ s with
        mem := setState s.mem P process_state_t.PROCESS_READY
        ready := { head := some P, tail := some P }
        locks := s.locks ++ [LockOp.lock Mutex.current_mutex, LockOp.lock Mutex.ready_mutex,
          LockOp.unlock Mutex.ready_mutex, LockOp.unlock Mutex.current_mutex] },
      ?_, isQueue_enqueue_nil _ P, rfl, rfl, fun a => by simp⟩
    unfold preempt
    rw [hcur, hq.1]
  | cons h l =>
    obtain ⟨t, ht, hq1⟩ :=
      isQueue_enqueue_cons _ _ h l P process_state_t.PROCESS_READY hq hP
    refine ⟨{ s with
        mem := setNext (setState s.mem P process_state_t.PROCESS_READY) t (some P)
        ready := { head := s.ready.head, tail := some P }
        locks := s.locks ++ [LockOp.lock Mutex.current_mutex, LockOp.lock Mutex.ready_mutex,
          LockOp.unlock Mutex.ready_mutex, LockOp.unlock Mutex.current_mutex] },
      ?_, hq1, rfl, rfl, fun a => by simp⟩
    unfold preempt
    simp only [hcur, ht]
    rw [hq.1]

/-- Every allowed, completed handler call keeps the invariant. -/
theorem step_inv (strict : Prop) (op : Op) (s s' : Sched) (hinv : Inv strict s)
    (hal : allowed s op = true) (hs : step op s = some s') : Inv strict s' := by
  cases op with
  | schedule c => exact schedule_inv strict c s s' (hinv.pre c) hs
  | yield c =>
    obtain ⟨P0, hP0⟩ := told_of_isSome c s.trace hal
    obtain ⟨P, hcur, hs'⟩ := yield_some c s s' hs
    obtain ⟨_, _, _, _, hB, _⟩ := id hinv
    have hPP : P0 = P :=
      Option.some.inj (Option.some.inj ((hB c P0 hP0).1.symm.trans hcur))
    subst hPP
    exact schedule_inv strict c _ s'
      (store_pre strict c P0 _ _ s (by decide) hinv hP0) hs'
  | terminate c =>
    obtain ⟨P0, hP0⟩ := told_of_isSome c s.trace hal
    obtain ⟨P, hcur, hs'⟩ := terminate_some c s s' hs
    obtain ⟨_, _, _, _, hB, _⟩ := id hinv
    have hPP : P0 = P :=
      Option.some.inj (Option.some.inj ((hB c P0 hP0).1.symm.trans hcur))
    subst hPP
    exact schedule_inv strict c _ s'
      (store_pre strict c P0 _ _ s (by decide) hinv hP0) hs'
  | preempt c =>
    obtain ⟨P, hP⟩ := told_of_isSome c s.trace hal
    obtain ⟨q, hq, hR, hD, hB, hU⟩ := hinv
    obtain ⟨hcur, hrun⟩ := hB c P hP
    have hPq : P ∉ q := by
      intro hmem
      have := hR P hmem
      rw [hrun] at this
      exact process_state_t.noConfusion this
    obtain ⟨mid, hmid, hqm, hcm, htm, hsm⟩ := preempt_mid_queue c s P q hcur hq hPq
    have hs' : schedule c mid = some s' := by
      rw [← hmid]
      exact hs
    refine schedule_inv strict c mid s' ⟨q ++ [P], hqm, ?_, ?_, ?_, ?_⟩ hs'
    · intro p hp
      rw [hsm]
      split
      · rfl
      · next hne =>
        rcases List.mem_append.mp hp with h | h
        · exact hR p h
        · exact absurd (List.mem_singleton.mp h) hne
    · intro hstrict p hp
      rw [hsm] at hp
      by_cases hne : p = P
      · simp [hne]
      · rw [if_neg hne] at hp
        exact List.mem_append_left _ (hD hstrict p hp)
    · intro c' P' hc' h'
      rw [htm] at h'
      obtain ⟨hb1, hb2⟩ := hB c' P' h'
      refine ⟨by rw [hcm]; exact hb1, ?_⟩
      have hne : P' ≠ P := fun e => hc' (hU c' c P' h' (e ▸ hP))
      rw [hsm, if_neg hne]
      exact hb2
    · intro c1 c2 P' _ _ h1 h2
      rw [htm] at h1 h2
      exact hU c1 c2 P' h1 h2
  | wake_up P =>
    obtain ⟨q, hq, hR, hD, hB, hU⟩ := hinv
    have hst : (s.mem P).state = process_state_t.PROCESS_NEW ∨
        (s.mem P).state = process_state_t.PROCESS_WAITING := by
      simpa [allowed] using hal
    have hPq : P ∉ q := by
      intro hmem
      have := hR P hmem
      rcases hst with h | h <;> rw [h] at this <;> exact process_state_t.noConfusion this
    obtain ⟨s1, hs1, hq1, hm1, _, hcu1, htr1, _⟩ := wake_up_spec P s q hq hPq
    have hs' : wake_up P s = some s' := hs
    rw [hs1] at hs'
    cases hs'
    refine ⟨q ++ [P], hq1, ?_, ?_, ?_, ?_⟩
    · intro p hp
      rw [hm1]
      split
      · rfl
      · next hne =>
        rcases List.mem_append.mp hp with h | h
        · exact hR p h
        · exact absurd (List.mem_singleton.mp h) hne
    · intro hstrict p hp
      rw [hm1] at hp
      by_cases hne : p = P
      · simp [hne]
      · rw [if_neg hne] at hp
        exact List.mem_append_left _ (hD hstrict p hp)
    · intro c P' h'
      rw [htr1, lastSwitch_append_signal] at h'
      obtain ⟨hb1, hb2⟩ := hB c P' h'
      refine ⟨by rw [hcu1]; exact hb1, ?_⟩
      have hne : P' ≠ P := by
        intro e
        rw [e] at hb2
        rcases hst with h | h <;> rw [h] at hb2 <;> exact process_state_t.noConfusion hb2
      rw [hm1, if_neg hne]
      exact hb2
    · intro c1 c2 P' h1 h2
      rw [htr1, lastSwitch_append_signal] at h1 h2
      exact hU c1 c2 P' h1 h2

/-- A protocol-following run splits into its first call and the rest. -/
theorem follows_cons (op : Op) (rest : List Op) (s : Sched)
    (h : follows (op :: rest) s = true) :
    allowed s op = true ∧ ∃ s1, step op s = some s1 ∧ follows rest s1 = true := by
  simp only [follows, Bool.and_eq_true] at h
  refine ⟨h.1, ?_⟩
  cases hs : step op s with
  | none => rw [hs] at h; exact absurd h.2 (by simp)
  | some s1 => rw [hs] at h; exact ⟨s1, rfl, h.2⟩

/-- The invariant holds along every protocol-following run. -/
theorem run_inv (strict : Prop) (ops : List Op) (s s' : Sched) (hinv : Inv strict s)
    (hf : follows ops s = true) (hrun : run ops s = some s') : Inv strict s' := by
  induction ops generalizing s with
  | nil =>
    simp only [run, Option.some.injEq] at hrun
    subst hrun
    exact hinv
  | cons op rest ih =>
    obtain ⟨hal, s1, hs1, hf1⟩ := follows_cons op rest s hf
    simp only [run, hs1] at hrun
    exact ih s1 (step_inv strict op s s1 hinv hal hs1) hf1 hrun

/-- The invariant holds in the initial state. -/
theorem init_inv (strict : Prop) (cpu_count : Nat) (cs : Int) (mem : Nat → pcb_t)
    (hmem : strict → ∀ p, (mem p).state ≠ process_state_t.PROCESS_READY) :
    Inv strict (init cpu_count cs mem) := by
  refine ⟨[], ⟨rfl, rfl⟩, ?_, ?_, ?_, ?_⟩
  · intro p hp
    exact absurd hp (List.not_mem_nil p)
  · intro hstrict p hp
    exact absurd hp (hmem hstrict p)
  · intro c P h
    simp [init, lastSwitch] at h
  · intro c1 c2 P h
    simp [init, lastSwitch] at h

/-- The head pointer of a well-formed queue names a queued process. -/
theorem isQueue_head_mem (mem : Nat → pcb_t) (ready : Queue) (q : List Nat) (a : Nat)
    (hq : isQueue mem ready q) (h : ready.head = some a) : a ∈ q := by
  cases q with
  | nil => rw [hq.1] at h; exact Option.noConfusion h
  | cons p r =>
    have : p = a := Option.some.inj (hq.1.symm.trans h)
    rw [this]
    exact List.mem_cons_self _ _

/-- An allowed, completed call does not touch a TERMINATED process. -/
theorem step_terminated (strict : Prop) (op : Op) (s s' : Sched) (P : Nat)
    (hinv : Inv strict s) (hal : allowed s op = true) (hs : step op s = some s')
    (hP : (s.mem P).state = process_state_t.PROCESS_TERMINATED) :
    (s'.mem P).state = process_state_t.PROCESS_TERMINATED := by
  obtain ⟨q, hq, hR, _, hB, _⟩ := id hinv
  have hhead : s.ready.head ≠ some P := by
    intro h
    have := hR P (isQueue_head_mem _ _ q P hq h)
    rw [hP] at this
    exact process_state_t.noConfusion this
  have hslot : ∀ c, (lastSwitch c s.trace).join.isSome = true →
      s.current[c]? ≠ some (some P) := by
    intro c hc e
    obtain ⟨P0, hP0⟩ := told_of_isSome c s.trace hc
    obtain ⟨hb1, hb2⟩ := hB c P0 hP0
    have : P0 = P := Option.some.inj (Option.some.inj (hb1.symm.trans e))
    rw [this, hP] at hb2
    exact process_state_t.noConfusion hb2
  cases op with
  | schedule c =>
    rw [(schedule_frame c s s' hs).2.2.2 P hhead]
    exact hP
  | preempt c =>
    rw [(cpu_handler_frame c s s' (Or.inr (Or.inl hs))).2.2.2 P (hslot c hal) hhead]
    exact hP
  | yield c =>
    rw [(cpu_handler_frame c s s' (Or.inr (Or.inr (Or.inl hs)))).2.2.2 P (hslot c hal) hhead]
    exact hP
  | terminate c =>
    rw [(cpu_handler_frame c s s' (Or.inr (Or.inr (Or.inr hs)))).2.2.2 P (hslot c hal) hhead]
    exact hP
  | wake_up P' =>
    have hst : (s.mem P').state = process_state_t.PROCESS_NEW ∨
        (s.mem P').state = process_state_t.PROCESS_WAITING := by
      simpa [allowed] using hal
    have hne : P ≠ P' := by
      intro e
      rw [e] at hP
      rcases hst with h | h <;> rw [h] at hP <;> exact process_state_t.noConfusion hP
    rw [(wake_up_frame P' s s' hs).2.2.2 P hne]
    exact hP

/-- Along a protocol-following run a TERMINATED process stays TERMINATED. -/
theorem run_terminated (strict : Prop) (ops : List Op) (s s' : Sched) (P : Nat)
    (hinv : Inv strict s) (hf : follows ops s = true) (hrun : run ops s = some s')
    (hP : (s.mem P).state = process_state_t.PROCESS_TERMINATED) :
    (s'.mem P).state = process_state_t.PROCESS_TERMINATED := by
  induction ops generalizing s with
  | nil =>
    simp only [run, Option.some.injEq] at hrun
    subst hrun
    exact hP
  | cons op rest ih =>
    obtain ⟨hal, s1, hs1, hf1⟩ := follows_cons op rest s hf
    simp only [run, hs1] at hrun
    exact ih s1 (step_inv strict op s s1 hinv hal hs1) hf1 hrun
      (step_terminated strict op s s1 P hinv hal hs1 hP)

/-! ## Well-formedness of the queue and waiting in it -/

theorem isQueue_nodup (mem : Nat → pcb_t) (ready : Queue) (q : List Nat)
    (hq : isQueue mem ready q) : q.Nodup := by
  cases q with
  | nil => exact List.nodup_nil
  | cons p r => exact hq.2.2

/-- The tail pointer names the last process reached from `p`. -/
theorem linked_getLast (mem : Nat → pcb_t) (tail : Option Nat) (l : List Nat) (p : Nat)
    (h : linked mem tail p l) : tail = (p :: l).getLast? := by
  induction l generalizing p with
  | nil => simpa using h
  | cons n rest ih =>
    rw [List.getLast?_cons_cons]
    exact ih n h.2

/-- Head and tail pointer of a well-formed queue name its first and its last
process. -/
theorem isQueue_ends (mem : Nat → pcb_t) (ready : Queue) (q : List Nat)
    (hq : isQueue mem ready q) : ready.head = q.head? ∧ ready.tail = q.getLast? := by
  cases q with
  | nil => exact ⟨hq.1, hq.2⟩
  | cons p r => exact ⟨hq.1, linked_getLast mem ready.tail r p hq.2.1⟩

theorem enqueues_nodup (s : Sched) (op : Op) : (enqueues s op).Nodup := by
  cases op with
  | wake_up p => simp [enqueues]
  | preempt c =>
    simp only [enqueues]
    split <;> simp
  | schedule c => simp [enqueues]
  | yield c => simp [enqueues]
  | terminate c => simp [enqueues]

/-- Freshness as read against one known reading of the queue. -/
theorem fresh_of (s : Sched) (op : Op) (q0 : List Nat)
    (h0 : isQueue s.mem s.ready q0) (hd : ∀ p ∈ enqueues s op, p ∉ q0) :
    ∀ q, isQueue s.mem s.ready q → ∀ p ∈ enqueues s op, p ∉ q := by
  intro q hq
  rw [isQueue_unique _ _ q q0 hq h0]
  exact hd

/-- Freshness of a sequence from freshness of its first call, read against one
known reading of the queue, and freshness of the rest. -/
theorem freshEnqueues_cons (op : Op) (rest : List Op) (s s1 : Sched) (q0 : List Nat)
    (hs : step op s = some s1) (h0 : isQueue s.mem s.ready q0)
    (hd : ∀ p ∈ enqueues s op, p ∉ q0) (hrest : freshEnqueues rest s1) :
    freshEnqueues (op :: rest) s := by
  simp only [freshEnqueues, hs]
  exact ⟨fresh_of s op q0 h0 hd, hrest⟩

/-- Calls that never enqueue a queued process keep the queue well formed. -/
theorem run_well_formed (ops : List Op) (s s' : Sched) (q : List Nat)
    (hq : isQueue s.mem s.ready q) (hfresh : freshEnqueues ops s)
    (hrun : run ops s = some s') : ∃ q', isQueue s'.mem s'.ready q' := by
  induction ops generalizing s q with
  | nil =>
    simp only [run, Option.some.injEq] at hrun
    subst hrun
    exact ⟨q, hq⟩
  | cons op rest ih =>
    simp only [run] at hrun
    cases hstep : step op s with
    | none =>
      rw [hstep] at hrun
      exact Option.noConfusion hrun
    | some s1 =>
      rw [hstep] at hrun
      simp only [freshEnqueues, hstep] at hfresh
      have hnd : (q ++ enqueues s op).Nodup := by
        rw [List.nodup_append]
        refine ⟨isQueue_nodup _ _ q hq, enqueues_nodup s op, ?_⟩
        intro a ha hb
        exact hfresh.1 q hq a hb ha
      obtain ⟨_, q1, hq1, _, _⟩ := step_fifo op s s1 q hq hnd hstep
      exact ih s1 q1 hq1 hfresh.2 hrun

/-- Under the invariant an allowed call enqueues only a process that is not
queued. -/
theorem inv_fresh (strict : Prop) (op : Op) (s : Sched) (q : List Nat)
    (hinv : Inv strict s) (hq : isQueue s.mem s.ready q) (hal : allowed s op = true) :
    (q ++ enqueues s op).Nodup := by
  obtain ⟨q0, hq0, hR, _, hB, _⟩ := hinv
  have hqq : q0 = q := isQueue_unique _ _ q0 q hq0 hq
  subst hqq
  rw [List.nodup_append]
  refine ⟨isQueue_nodup _ _ q0 hq, enqueues_nodup s op, ?_⟩
  intro a ha hb
  have haR := hR a ha
  cases op with
  | schedule c => simp [enqueues] at hb
  | yield c => simp [enqueues] at hb
  | terminate c => simp [enqueues] at hb
  | wake_up p =>
    have hst : (s.mem p).state = process_state_t.PROCESS_NEW ∨
        (s.mem p).state = process_state_t.PROCESS_WAITING := by
      simpa [allowed] using hal
    have : a = p := by simpa [enqueues] using hb
    rw [this] at haR
    rcases hst with h | h <;> rw [h] at haR <;> exact process_state_t.noConfusion haR
  | preempt c =>
    obtain ⟨P, hP⟩ := told_of_isSome c s.trace hal
    obtain ⟨hb1, hb2⟩ := hB c P hP
    have : a = P := by simpa [enqueues, hb1] using hb
    rw [this, hb2] at haR
    exact process_state_t.noConfusion haR

/-- First-in first-out order along a protocol-following run. -/
theorem inv_run_fifo (strict : Prop) (ops : List Op) (s s' : Sched) (q : List Nat)
    (hinv : Inv strict s) (hq : isQueue s.mem s.ready q)
    (hf : follows ops s = true) (hrun : run ops s = some s') :
    ∃ d q', isQueue s'.mem s'.ready q' ∧
      dispatched s'.trace = dispatched s.trace ++ d ∧ d ++ q' = q ++ enqueuedBy ops s := by
  induction ops generalizing s q with
  | nil =>
    simp only [run, Option.some.injEq] at hrun
    subst hrun
    exact ⟨[], q, hq, by simp, by simp [enqueuedBy]⟩
  | cons op rest ih =>
    obtain ⟨hal, s1, hs1, hf1⟩ := follows_cons op rest s hf
    simp only [run, hs1] at hrun
    obtain ⟨d1, q1, hq1, hd1, he1⟩ :=
      step_fifo op s s1 q hq (inv_fresh strict op s q hinv hq hal) hs1
    obtain ⟨d2, q2, hq2, hd2, he2⟩ :=
      ih s1 q1 (step_inv strict op s s1 hinv hal hs1) hq1 hf1 hrun
    refine ⟨d1 ++ d2, q2, hq2, ?_, ?_⟩
    · rw [hd2, hd1, List.append_assoc]
    · simp only [enqueuedBy, hs1]
      rw [List.append_assoc, he2, ← List.append_assoc, he1, List.append_assoc]

/-- A completed `schedule` on a non-empty queue runs its head on the CPU. -/
theorem schedule_head (c : Nat) (s s' : Sched) (H : Nat) (t : List Nat)
    (hq : isQueue s.mem s.ready (H :: t)) (hs : schedule c s = some s') :
    s'.current[c]? = some (some H) ∧
      (s'.mem H).state = process_state_t.PROCESS_RUNNING ∧
      s'.trace = s.trace ++ [Call.context_switch c (some H) s.cs_runtime] := by
  have hc : c < s.current.length := by
    by_contra hlt
    unfold schedule at hs
    rw [hq.1] at hs
    simp [hlt] at hs
  obtain ⟨s1, hs1, _, hm, hcu, htr, _⟩ := schedule_cons c s H t hq hc
  rw [hs1] at hs
  cases hs
  refine ⟨by rw [hcu]; simp [hc], by rw [hm]; simp, htr⟩

/-- Under the invariant, an allowed and completed call of `schedule`,
`preempt`, `yield` or `terminate` for `c` on a non-empty queue runs the head of
the queue on `c`. -/
theorem step_head (strict : Prop) (op : Op) (c : Nat) (s s' : Sched) (H : Nat)
    (t : List Nat) (hinv : Inv strict s) (hq : isQueue s.mem s.ready (H :: t))
    (hop : op = Op.schedule c ∨ op = Op.preempt c ∨ op = Op.yield c ∨ op = Op.terminate c)
    (hal : allowed s op = true) (hs : step op s = some s') :
    s'.current[c]? = some (some H) ∧
      (s'.mem H).state = process_state_t.PROCESS_RUNNING ∧
      s'.trace = s.trace ++ [Call.context_switch c (some H) s.cs_runtime] := by
  rcases hop with e | e | e | e <;> subst e
  · exact schedule_head c s s' H t hq hs
  · obtain ⟨P, hP⟩ := told_of_isSome c s.trace hal
    obtain ⟨q0, hq0, hR, _, hB, _⟩ := hinv
    have hqq : q0 = H :: t := isQueue_unique _ _ _ _ hq0 hq
    subst hqq
    obtain ⟨hcur, hrun⟩ := hB c P hP
    have hPq : P ∉ H :: t := by
      intro hmem
      have := hR P hmem
      rw [hrun] at this
      exact process_state_t.noConfusion this
    obtain ⟨s1, H1, t1, hs1, hHt, _, hst, hcu, htr, _⟩ :=
      preempt_spec c s P (H :: t) hcur hq hPq
    have hs' : preempt c s = some s' := hs
    rw [hs1] at hs'
    cases hs'
    simp only [List.cons_append, List.cons.injEq] at hHt
    obtain ⟨rfl, _⟩ := hHt
    have hc : c < s.current.length := by
      by_contra hlt
      rw [List.getElem?_eq_none (Nat.le_of_not_lt hlt)] at hcur
      exact Option.noConfusion hcur
    refine ⟨by rw [hcu]; simp [hc], by rw [hst]; simp, htr⟩
  · obtain ⟨P, _, hs'⟩ := yield_some c s s' hs
    exact schedule_head c
      { s with
        mem := setState s.mem P process_state_t.PROCESS_WAITING
        locks := s.locks ++
          [LockOp.lock Mutex.current_mutex, LockOp.unlock Mutex.current_mutex] }
      s' H t ((isQueue_setState _ _ _ _ _).mpr hq) hs'
  · obtain ⟨P, _, hs'⟩ := terminate_some c s s' hs
    exact schedule_head c
      { s with
        mem := setState s.mem P process_state_t.PROCESS_TERMINATED
        locks := s.locks ++
          [LockOp.lock Mutex.current_mutex, LockOp.unlock Mutex.current_mutex] }
      s' H t ((isQueue_setState _ _ _ _ _).mpr hq) hs'

/-! ## Program start: what `main` does -/

/-- The shape test of `main` fails: usage error, status -1, no simulator. -/
theorem main_usage (atoi : String → Option Int) (malloc_ok : Int → Bool) (argv : List String)
    (h : ¬ (argv.length % 2 = 0 ∧ argv.length < 5)) :
    main atoi malloc_ok argv =
      some { exit := Exit.returned (-1), started := none,
             round_robin_flag := 0, cs_runtime := -1 } := by
  unfold main
  rw [if_pos h]

/-- One argument: first-in first-out mode. -/
theorem main_two (atoi : String → Option Int) (malloc_ok : Int → Bool) (p a1 : String)
    (cpu : Int) (h1 : atoi a1 = some cpu) :
    main atoi malloc_ok [p, a1] =
      some (if malloc_ok cpu then
          { exit := Exit.returned 0, started := some cpu,
            round_robin_flag := 0, cs_runtime := -1 }
        else { exit := Exit.aborted, started := none,
               round_robin_flag := 0, cs_runtime := -1 }) := by
  cases hm : malloc_ok cpu <;> simp [main, h1, hm]

/-- Three arguments, the second one not `-r`: first-in first-out mode. -/
theorem main_four_other (atoi : String → Option Int) (malloc_ok : Int → Bool)
    (p a1 a2 a3 : String) (cpu : Int) (h1 : atoi a1 = some cpu) (h2 : a2 ≠ "-r") :
    main atoi malloc_ok [p, a1, a2, a3] =
      some (if malloc_ok cpu then
          { exit := Exit.returned 0, started := some cpu,
            round_robin_flag := 0, cs_runtime := -1 }
        else { exit := Exit.aborted, started := none,
               round_robin_flag := 0, cs_runtime := -1 }) := by
  cases hm : malloc_ok cpu <;> simp [main, h1, h2, hm]

/-- Three arguments, the second one `-r`: round-robin mode. -/
theorem main_four_rr (atoi : String → Option Int) (malloc_ok : Int → Bool)
    (p a1 a3 : String) (cpu t : Int) (h1 : atoi a1 = some cpu) (h3 : atoi a3 = some t) :
    main atoi malloc_ok [p, a1, "-r", a3] =
      some (if malloc_ok cpu then
          { exit := Exit.returned 0, started := some cpu,
            round_robin_flag := 1, cs_runtime := t }
        else { exit := Exit.aborted, started := none,
               round_robin_flag := 1, cs_runtime := t }) := by
  cases hm : malloc_ok cpu <;> simp [main, h1, h3, hm]

/-! ## The dispatcher -/

/-- C1: when the ready queue holds the process `p` followed by `q`, a call
`schedule(cpu_id)` for a CPU of the table completes, leaves the ready queue
holding exactly `q` in the same order, sets the state of `p` to RUNNING, stores
`p` in `current[cpu_id]`, and issues exactly one call
`context_switch(cpu_id, p, cs_runtime)`. -/
theorem schedule_dispatches_head (cpu_id : Nat) (s : Sched) (p : Nat) (q : List Nat)
    (hq : isQueue s.mem s.ready (p :: q)) (hc : cpu_id < s.current.length) :
    ∃ s', schedule cpu_id s = some s' ∧
      isQueue s'.mem s'.ready q ∧
      (s'.mem p).state = process_state_t.PROCESS_RUNNING ∧
      s'.current[cpu_id]? = some (some p) ∧
      s'.trace = s.trace ++ [Call.context_switch cpu_id (some p) s.cs_runtime] := by
  obtain ⟨s', hs, hq', hm, hcu, htr, _⟩ := schedule_cons cpu_id s p q hq hc
  refine ⟨s', hs, hq', ?_, ?_, htr⟩
  · rw [hm]; simp
  · rw [hcu]; simp [hc]

/-- Witness for C1: one idle CPU and the queue 0, 1. -/
theorem schedule_dispatches_head_witness :
    ∃ s', schedule 0 twoQueued = some s' ∧
      isQueue s'.mem s'.ready [1] ∧
      (s'.mem 0).state = process_state_t.PROCESS_RUNNING ∧
      s'.current[0]? = some (some 0) ∧
      s'.trace = twoQueued.trace ++ [Call.context_switch 0 (some 0) twoQueued.cs_runtime] :=
  schedule_dispatches_head 0 twoQueued 0 [1] (by decide) (by decide)

/-- The state `runningAlone` is the one reached from the initial state with one
CPU by `wake_up(0)` followed by `schedule(0)`. -/
theorem runningAlone_reachable :
    follows [Op.wake_up 0, Op.schedule 0] (init 1 (-1) freshMem) = true ∧
      ∃ s, run [Op.wake_up 0, Op.schedule 0] (init 1 (-1) freshMem) = some s ∧
        s.current = runningAlone.current ∧ s.ready = runningAlone.ready ∧
        s.cs_runtime = runningAlone.cs_runtime ∧
        s.trace = runningAlone.trace ∧ s.locks = runningAlone.locks ∧
        ∀ a, s.mem a = runningAlone.mem a := by
  refine ⟨by decide, _, rfl, rfl, rfl, rfl, rfl, rfl, ?_⟩
  intro a
  by_cases h : a = 0 <;> simp [setState, freshMem, runningAlone, init, h]

/-- C2: evaluation at the failing input.  `yieldedAlone` is the state in which
`yield(0)` calls `schedule(0)`: process 0 is in `current[0]` and the ready
queue is empty.  There `schedule(0)` issues the one idle call
`context_switch(0, NULL, cs_runtime)` and leaves the queue empty, but
`current[0]` still holds process 0: the idle branch never writes the slot. -/
theorem schedule_idle_keeps_slot :
    yield 0 runningAlone = schedule 0 yieldedAlone ∧
      isQueue yieldedAlone.mem yieldedAlone.ready [] ∧
      ∃ s', schedule 0 yieldedAlone = some s' ∧
        isQueue s'.mem s'.ready [] ∧
        s'.current[0]? = some (some 0) ∧
        s'.trace = yieldedAlone.trace ++ [Call.context_switch 0 none (-1)] :=
  ⟨rfl, by decide, _, rfl, by decide, by decide, by decide⟩

/-- C3: evaluation at the failing input.  From the initial state with one CPU
the calls `wake_up(0)`, `schedule(0)`, `yield(0)`, `wake_up(0)` follow the
engine protocol and complete; in the state reached process 0 is the one element
of the ready queue and is also stored in `current[0]`, because the idle
dispatch inside `yield(0)` left the slot untouched. -/
theorem mutual_exclusion_broken :
    follows [Op.wake_up 0, Op.schedule 0, Op.yield 0, Op.wake_up 0]
        (init 1 (-1) freshMem) = true ∧
      ∃ s, run [Op.wake_up 0, Op.schedule 0, Op.yield 0, Op.wake_up 0]
          (init 1 (-1) freshMem) = some s ∧
        isQueue s.mem s.ready [0] ∧ some 0 ∈ s.current :=
  ⟨by decide, _, rfl, by decide, by decide⟩

/-- C4: first-in first-out order, from a well-formed ready queue holding `q`.
First part: run any sequence of handler calls that completes and in which the
processes enqueued (by `wake_up` or by `preempt`) are pairwise distinct and not
in `q`; then the processes dispatched during the run, in the order of their
`context_switch` calls, followed by the processes left in the ready queue, are
exactly `q` followed by the enqueued processes in the order they were enqueued,
so a process enqueued before another is dispatched before it.  Second part:
waking up distinct processes `ps` not in `q` and then calling `schedule` once
for each CPU of `cpus` always completes, and the processes dispatched by these
successive `schedule` calls are the first `cpus.length` ones of `q` followed by
`ps`, in that order; the others stay queued in that order. -/
theorem fifo_order (s : Sched) (q : List Nat) (hq : isQueue s.mem s.ready q) :
    (∀ (ops : List Op) (s' : Sched),
      (q ++ enqueuedBy ops s).Nodup → run ops s = some s' →
      ∃ d q', isQueue s'.mem s'.ready q' ∧
        dispatched s'.trace = dispatched s.trace ++ d ∧
        d ++ q' = q ++ enqueuedBy ops s) ∧
    (∀ ps cpus : List Nat,
      (q ++ ps).Nodup → (∀ c ∈ cpus, c < s.current.length) →
      ∃ s', run (ps.map Op.wake_up ++ cpus.map Op.schedule) s = some s' ∧
        isQueue s'.mem s'.ready ((q ++ ps).drop cpus.length) ∧
        dispatched s'.trace = dispatched s.trace ++ (q ++ ps).take cpus.length) :=
  ⟨fun ops s' hfresh hrun => run_fifo ops s s' q hq hfresh hrun,
    fun ps cpus hnd hc => wake_then_schedule ps cpus s q hq hnd hc⟩

/-- Witness for C4: one CPU running process 2 with 0, 1 queued.  First part:
process 3 is enqueued by `wake_up`, then process 2 by `preempt` with no dequeue
between the two insertions; the dispatches that follow are 0, 1, 3, 2.  Second
part: processes 3 and 4 are woken in this order and three `schedule` calls
dispatch 0, 1, 3, leaving 4 queued. -/
theorem fifo_order_witness :
    (∃ s', run [Op.wake_up 3, Op.preempt 0, Op.schedule 0, Op.schedule 0, Op.schedule 0]
        busyQueued = some s' ∧
      dispatched s'.trace = dispatched busyQueued.trace ++ [0, 1, 3, 2] ∧
      ∃ d q', isQueue s'.mem s'.ready q' ∧
        dispatched s'.trace = dispatched busyQueued.trace ++ d ∧
        d ++ q' = [0, 1] ++ enqueuedBy
          [Op.wake_up 3, Op.preempt 0, Op.schedule 0, Op.schedule 0, Op.schedule 0]
          busyQueued) ∧
    (∃ s', run ([3, 4].map Op.wake_up ++ [0, 0, 0].map Op.schedule) busyQueued = some s' ∧
      isQueue s'.mem s'.ready (([0, 1] ++ [3, 4]).drop [0, 0, 0].length) ∧
      dispatched s'.trace =
        dispatched busyQueued.trace ++ (([0, 1] ++ [3, 4]).take [0, 0, 0].length)) :=
  ⟨⟨_, rfl, by decide,
      (fifo_order busyQueued [0, 1] (by decide)).1
        [Op.wake_up 3, Op.preempt 0, Op.schedule 0, Op.schedule 0, Op.schedule 0] _
        (by decide) rfl⟩,
    (fifo_order busyQueued [0, 1] (by decide)).2 [3, 4] [0, 0, 0] (by decide) (by decide)⟩

/-! ## Wake-up -/

/-- C5, counterexample: two CPUs run process 0 of priority 5 and process 1 of
priority 3, no slot is idle, and process 2 of priority 7 is woken.  The claim
asks for `force_preempt(1)`; the call completes and the trace holds no
`force_preempt(1)`. -/
theorem wake_up_priority_counterexample :
    (twoBusy 5 3 7).current = [some 0, some 1] ∧
      ((twoBusy 5 3 7).mem 0).static_priority = 5 ∧
      ((twoBusy 5 3 7).mem 1).static_priority = 3 ∧
      ((twoBusy 5 3 7).mem 2).static_priority = 7 ∧
      ∃ s', wake_up 2 (twoBusy 5 3 7) = some s' ∧ Call.force_preempt 1 ∉ s'.trace :=
  ⟨rfl, rfl, rfl, rfl, _, rfl, by decide⟩

/-- C5, amended: in every state with a well-formed ready queue in which no CPU
slot is idle and the process `L` of lowest priority among the running ones has
a priority strictly lower than that of `P`, the call `wake_up(P)` completes and
issues no `force_preempt` for any CPU: the only call it issues is the signal on
the idle condition. -/
theorem wake_up_issues_no_force_preempt (P : Nat) (s : Sched) (q : List Nat) (c L : Nat)
    (hq : isQueue s.mem s.ready q)
    (_hbusy : none ∉ s.current)
    (_hL : s.current[c]? = some (some L))
    (_hmin : ∀ Q, some Q ∈ s.current →
      (s.mem L).static_priority ≤ (s.mem Q).static_priority)
    (_hlt : (s.mem L).static_priority < (s.mem P).static_priority) :
    ∃ s', wake_up P s = some s' ∧
      s'.trace = s.trace ++ [Call.cond_signal] ∧
      ∀ c', Call.force_preempt c' ∉ s'.trace.drop s.trace.length := by
  obtain ⟨s', hs, _, htr⟩ := wake_up_trace P s q hq
  refine ⟨s', hs, htr, ?_⟩
  intro c'
  rw [htr]
  simp

/-- Witness for the amended C5: priorities 5 and 3 running, priority 7 woken. -/
theorem wake_up_issues_no_force_preempt_witness :
    ∃ s', wake_up 2 (twoBusy 5 3 7) = some s' ∧
      s'.trace = (twoBusy 5 3 7).trace ++ [Call.cond_signal] ∧
      ∀ c', Call.force_preempt c' ∉ s'.trace.drop (twoBusy 5 3 7).trace.length :=
  wake_up_issues_no_force_preempt 2 (twoBusy 5 3 7) [] 1 1 (by decide) (by decide)
    (by decide)
    (by
      intro Q hQ
      have : Q = 0 ∨ Q = 1 := by simpa [twoBusy] using hQ
      rcases this with rfl | rfl <;> decide)
    (by decide)

/-- C6: in every state with a well-formed ready queue `q` not holding `P`, in
which some CPU slot is idle or every running process has a priority greater
than or equal to that of `P`, the call `wake_up(P)` completes, issues no
`force_preempt` (the only call issued is the signal on the idle condition),
changes no slot of `current[]`, and leaves the ready queue holding `q` with `P`
appended behind it. -/
theorem wake_up_no_preempt (P : Nat) (s : Sched) (q : List Nat)
    (hq : isQueue s.mem s.ready q) (hP : P ∉ q)
    (_hidle : none ∈ s.current ∨
      ∀ Q, some Q ∈ s.current → (s.mem P).static_priority ≤ (s.mem Q).static_priority) :
    ∃ s', wake_up P s = some s' ∧
      s'.trace = s.trace ++ [Call.cond_signal] ∧
      (∀ c', Call.force_preempt c' ∉ s'.trace.drop s.trace.length) ∧
      s'.current = s.current ∧
      isQueue s'.mem s'.ready (q ++ [P]) := by
  obtain ⟨s', hs, hq', _, _, hcu, htr, _⟩ := wake_up_spec P s q hq hP
  refine ⟨s', hs, htr, ?_, hcu, hq'⟩
  intro c'
  rw [htr]
  simp

/-- Witness for C6: priorities 5 and 6 running, priority 4 woken. -/
theorem wake_up_no_preempt_witness :
    ∃ s', wake_up 2 (twoBusy 5 6 4) = some s' ∧
      s'.trace = (twoBusy 5 6 4).trace ++ [Call.cond_signal] ∧
      (∀ c', Call.force_preempt c' ∉ s'.trace.drop (twoBusy 5 6 4).trace.length) ∧
      s'.current = (twoBusy 5 6 4).current ∧
      isQueue s'.mem s'.ready ([] ++ [2]) :=
  wake_up_no_preempt 2 (twoBusy 5 6 4) [] (by decide) (by decide)
    (Or.inr (by
      intro Q hQ
      have : Q = 0 ∨ Q = 1 := by simpa [twoBusy] using hQ
      rcases this with rfl | rfl <;> decide))

/-- C7: for every well-formed ready queue `q` and every process `P` not in it,
`wake_up(P)` completes, sets the state of `P` to READY, leaves the ready queue
holding `q` with `P` appended as last element, and issues exactly one call, the
signal on the idle condition, hence no `context_switch`. -/
theorem wake_up_appends (P : Nat) (s : Sched) (q : List Nat)
    (hq : isQueue s.mem s.ready q) (hP : P ∉ q) :
    ∃ s', wake_up P s = some s' ∧
      (s'.mem P).state = process_state_t.PROCESS_READY ∧
      isQueue s'.mem s'.ready (q ++ [P]) ∧
      s'.trace = s.trace ++ [Call.cond_signal] := by
  obtain ⟨s', hs, hq', hst, _, _, htr, _⟩ := wake_up_spec P s q hq hP
  refine ⟨s', hs, ?_, hq', htr⟩
  rw [hst]
  simp

/-- Witness for C7: process 2 woken behind the queue 0, 1. -/
theorem wake_up_appends_witness :
    ∃ s', wake_up 2 twoQueued = some s' ∧
      (s'.mem 2).state = process_state_t.PROCESS_READY ∧
      isQueue s'.mem s'.ready ([0, 1] ++ [2]) ∧
      s'.trace = twoQueued.trace ++ [Call.cond_signal] :=
  wake_up_appends 2 twoQueued [0, 1] (by decide) (by decide)

/-! ## Preemption, yield and termination -/

/-- C8: in every state in which `current[cpu_id]` holds a process `P` that is
not in the well-formed ready queue `q`, the call `preempt(cpu_id)` completes.
If `q` is empty, `P` is dispatched again: it is RUNNING, it is in
`current[cpu_id]` and the queue is empty.  If `q` is `H` followed by `t`, then
`H` is RUNNING and in `current[cpu_id]`, `P` is READY, and the ready queue
holds `t` followed by `P`.  In both cases exactly one call is issued, a
`context_switch` for `cpu_id` naming the dispatched process. -/
theorem preempt_requeues_and_dispatches (cpu_id : Nat) (s : Sched) (P : Nat) (q : List Nat)
    (hcur : s.current[cpu_id]? = some (some P))
    (hq : isQueue s.mem s.ready q) (hP : P ∉ q) :
    ∃ s', preempt cpu_id s = some s' ∧
      (q = [] →
        (s'.mem P).state = process_state_t.PROCESS_RUNNING ∧
        s'.current[cpu_id]? = some (some P) ∧
        isQueue s'.mem s'.ready [] ∧
        s'.trace = s.trace ++ [Call.context_switch cpu_id (some P) s.cs_runtime]) ∧
      (∀ H t, q = H :: t →
        (s'.mem H).state = process_state_t.PROCESS_RUNNING ∧
        s'.current[cpu_id]? = some (some H) ∧
        (s'.mem P).state = process_state_t.PROCESS_READY ∧
        isQueue s'.mem s'.ready (t ++ [P]) ∧
        s'.trace = s.trace ++ [Call.context_switch cpu_id (some H) s.cs_runtime]) := by
  have hc : cpu_id < s.current.length := by
    by_contra hlt
    rw [List.getElem?_eq_none (Nat.le_of_not_lt hlt)] at hcur
    exact Option.noConfusion hcur
  obtain ⟨s', H, t, hs, hHt, hq', hst, hcu, htr, _⟩ := preempt_spec cpu_id s P q hcur hq hP
  refine ⟨s', hs, ?_, ?_⟩
  · intro hnil
    subst hnil
    simp only [List.nil_append, List.cons.injEq] at hHt
    obtain ⟨rfl, rfl⟩ := hHt
    refine ⟨?_, ?_, hq', htr⟩
    · rw [hst]; simp
    · rw [hcu]; simp [hc]
  · intro H' t' hcons
    subst hcons
    simp only [List.cons_append, List.cons.injEq] at hHt
    obtain ⟨rfl, rfl⟩ := hHt
    have hne : P ≠ H' := fun e => hP (e ▸ List.mem_cons_self _ _)
    refine ⟨?_, ?_, ?_, hq', htr⟩
    · rw [hst]; simp
    · rw [hcu]; simp [hc]
    · rw [hst]; simp [hne]

/-- Witness for C8: one CPU running process 2 with 0, 1 queued. -/
theorem preempt_requeues_and_dispatches_witness :
    ∃ s', preempt 0 busyQueued = some s' ∧
      (([0, 1] : List Nat) = [] →
        (s'.mem 2).state = process_state_t.PROCESS_RUNNING ∧
        s'.current[0]? = some (some 2) ∧
        isQueue s'.mem s'.ready [] ∧
        s'.trace = busyQueued.trace ++
          [Call.context_switch 0 (some 2) busyQueued.cs_runtime]) ∧
      (∀ H t, ([0, 1] : List Nat) = H :: t →
        (s'.mem H).state = process_state_t.PROCESS_RUNNING ∧
        s'.current[0]? = some (some H) ∧
        (s'.mem 2).state = process_state_t.PROCESS_READY ∧
        isQueue s'.mem s'.ready (t ++ [2]) ∧
        s'.trace = busyQueued.trace ++
          [Call.context_switch 0 (some H) busyQueued.cs_runtime]) :=
  preempt_requeues_and_dispatches 0 busyQueued 2 [0, 1] (by decide) (by decide) (by decide)

/-- C9: evaluation at the failing input.  With process 0 RUNNING in
`current[0]` and an empty ready queue, `yield(0)` completes, process 0 is
WAITING and not queued, exactly one call `context_switch(0, NULL, cs_runtime)`
is issued, but `current[0]` still holds process 0: the slot is not emptied. -/
theorem yield_keeps_slot :
    ∃ s', yield 0 runningAlone = some s' ∧
      (s'.mem 0).state = process_state_t.PROCESS_WAITING ∧
      isQueue s'.mem s'.ready [] ∧
      s'.current[0]? = some (some 0) ∧
      s'.trace = runningAlone.trace ++ [Call.context_switch 0 none (-1)] :=
  ⟨_, rfl, by decide, by decide, by decide, by decide⟩

/-- C10: evaluation at the failing input.  With process 0 RUNNING in
`current[0]` and an empty ready queue, `terminate(0)` completes, process 0 is
TERMINATED and not queued, the idle call `context_switch(0, NULL, cs_runtime)`
is issued, but process 0 is still stored in a slot of `current[]`, namely
`current[0]`, which is neither empty nor holds a different process. -/
theorem terminate_keeps_slot :
    ∃ s', terminate 0 runningAlone = some s' ∧
      (s'.mem 0).state = process_state_t.PROCESS_TERMINATED ∧
      isQueue s'.mem s'.ready [] ∧
      some 0 ∈ s'.current ∧
      s'.current[0]? = some (some 0) ∧
      s'.trace = runningAlone.trace ++ [Call.context_switch 0 none (-1)] :=
  ⟨_, rfl, by decide, by decide, by decide, by decide, by decide⟩

/-! ## The current-assignment table -/

/-- C11: evaluation at the failing input.  From the initial state with two
CPUs the calls `wake_up(0)`, `schedule(0)`, `yield(0)` follow the engine
protocol and leave `current[0]` holding process 0, whose state is WAITING;
continuing with `wake_up(0)`, `schedule(1)` still follows the protocol and
leaves process 0, now RUNNING, in both `current[0]` and `current[1]`. -/
theorem current_table_invariant_broken :
    (follows [Op.wake_up 0, Op.schedule 0, Op.yield 0] (init 2 (-1) freshMem) = true ∧
      ∃ s, run [Op.wake_up 0, Op.schedule 0, Op.yield 0] (init 2 (-1) freshMem) = some s ∧
        s.current[0]? = some (some 0) ∧
        (s.mem 0).state = process_state_t.PROCESS_WAITING) ∧
    (follows [Op.wake_up 0, Op.schedule 0, Op.yield 0, Op.wake_up 0, Op.schedule 1]
        (init 2 (-1) freshMem) = true ∧
      ∃ s, run [Op.wake_up 0, Op.schedule 0, Op.yield 0, Op.wake_up 0, Op.schedule 1]
          (init 2 (-1) freshMem) = some s ∧
        s.current = [some 0, some 0] ∧
        (s.mem 0).state = process_state_t.PROCESS_RUNNING) :=
  ⟨⟨by decide, _, rfl, by decide, by decide⟩, ⟨by decide, _, rfl, by decide, by decide⟩⟩

/-! ## Program start -/

/-- C13, counterexample: with every allocation succeeding, `main` started as
`os-sim 2 -x 5` (malformed mode flag), as `os-sim 0` (CPU count not positive)
and as `os-sim 2 -r abc` (time slice not a positive integer) calls
`start_simulator` and returns 0. -/
theorem main_accepts_malformed :
    main atoi (fun _ => true) ["os-sim", "2", "-x", "5"] =
        some { exit := Exit.returned 0, started := some 2,
               round_robin_flag := 0, cs_runtime := -1 } ∧
      main atoi (fun _ => true) ["os-sim", "0"] =
        some { exit := Exit.returned 0, started := some 0,
               round_robin_flag := 0, cs_runtime := -1 } ∧
      main atoi (fun _ => true) ["os-sim", "2", "-r", "abc"] =
        some { exit := Exit.returned 0, started := some 2,
               round_robin_flag := 1, cs_runtime := 0 } := by
  refine ⟨?_, ?_, ?_⟩
  · exact main_four_other atoi _ _ _ _ _ 2 (by decide) (by decide)
  · exact main_two atoi _ _ _ 0 (by decide)
  · exact main_four_rr atoi _ _ _ _ 2 0 (by decide) (by decide)

/-- C13, amended: `main` rejects by the number of arguments only.  When `argc`
is odd or at least 5 it returns -1 without calling `start_simulator`.  When
`argc` is 2, or is 4 with a flag other than `-r`, and the allocation of
`current[]` succeeds, it calls `start_simulator(atoi(argv[1]))` and returns 0,
whatever the value of the CPU count; the flag and the argument after it are
ignored.  When `argc` is 4 with the flag `-r` and the allocation succeeds, it
calls `start_simulator(atoi(argv[1]))` and returns 0 with
`cs_runtime = atoi(argv[3])`, whatever that value. -/
theorem main_rejects_by_argument_count (atoi : String → Option Int)
    (malloc_ok : Int → Bool) :
    (∀ argv : List String, ¬ (argv.length % 2 = 0 ∧ argv.length < 5) →
      main atoi malloc_ok argv =
        some { exit := Exit.returned (-1), started := none,
               round_robin_flag := 0, cs_runtime := -1 }) ∧
    (∀ (p a1 : String) (cpu : Int), atoi a1 = some cpu → malloc_ok cpu = true →
      main atoi malloc_ok [p, a1] =
        some { exit := Exit.returned 0, started := some cpu,
               round_robin_flag := 0, cs_runtime := -1 }) ∧
    (∀ (p a1 a2 a3 : String) (cpu : Int), atoi a1 = some cpu → malloc_ok cpu = true →
      a2 ≠ "-r" →
      main atoi malloc_ok [p, a1, a2, a3] =
        some { exit := Exit.returned 0, started := some cpu,
               round_robin_flag := 0, cs_runtime := -1 }) ∧
    (∀ (p a1 a3 : String) (cpu t : Int), atoi a1 = some cpu → atoi a3 = some t →
      malloc_ok cpu = true →
      main atoi malloc_ok [p, a1, "-r", a3] =
        some { exit := Exit.returned 0, started := some cpu,
               round_robin_flag := 1, cs_runtime := t }) := by
  refine ⟨fun argv h => main_usage atoi malloc_ok argv h, ?_, ?_, ?_⟩
  · intro p a1 cpu h1 hm
    rw [main_two atoi malloc_ok p a1 cpu h1, if_pos hm]
  · intro p a1 a2 a3 cpu h1 hm h2
    rw [main_four_other atoi malloc_ok p a1 a2 a3 cpu h1 h2, if_pos hm]
  · intro p a1 a3 cpu t h1 h3 hm
    rw [main_four_rr atoi malloc_ok p a1 a3 cpu t h1 h3, if_pos hm]

/-- Witness for the amended C13: the four cases at concrete argument
vectors. -/
theorem main_rejects_by_argument_count_witness :
    main atoi (fun _ => true) ["os-sim", "2", "-r"] =
        some { exit := Exit.returned (-1), started := none,
               round_robin_flag := 0, cs_runtime := -1 } ∧
      main atoi (fun _ => true) ["os-sim", "-3"] =
        some { exit := Exit.returned 0, started := some (-3),
               round_robin_flag := 0, cs_runtime := -1 } ∧
      main atoi (fun _ => true) ["os-sim", "2", "-p", "x"] =
        some { exit := Exit.returned 0, started := some 2,
               round_robin_flag := 0, cs_runtime := -1 } ∧
      main atoi (fun _ => true) ["os-sim", "4", "-r", "-7"] =
        some { exit := Exit.returned 0, started := some 4,
               round_robin_flag := 1, cs_runtime := -7 } :=
  ⟨(main_rejects_by_argument_count atoi (fun _ => true)).1 _ (by decide),
    (main_rejects_by_argument_count atoi (fun _ => true)).2.1 _ _ (-3) (by decide) rfl,
    (main_rejects_by_argument_count atoi (fun _ => true)).2.2.1 _ _ _ _ 2 (by decide) rfl
      (by decide),
    (main_rejects_by_argument_count atoi (fun _ => true)).2.2.2 _ _ _ 4 (-7) (by decide)
      (by decide) rfl⟩

/-! ## Locks and the idle handler -/

/-- C15: evaluation at the failing input.  `schedule(0)` on a non-empty queue
locks `current_mutex` while holding `ready_mutex`; `preempt(0)` locks
`ready_mutex` while holding `current_mutex`, and only afterwards, inside its
`schedule` call, takes the two in the order of `schedule`.  The two handlers
acquire the pair of mutexes in opposite orders. -/
theorem lock_order_inconsistent :
    (∃ s', schedule 0 twoQueued = some s' ∧
      acquisitions [] (newLocks twoQueued s') =
        [(Mutex.ready_mutex, Mutex.current_mutex)]) ∧
    (∃ s', preempt 0 busyQueued = some s' ∧
      acquisitions [] (newLocks busyQueued s') =
        [(Mutex.current_mutex, Mutex.ready_mutex),
         (Mutex.ready_mutex, Mutex.current_mutex)]) :=
  ⟨⟨_, rfl, by decide⟩, ⟨_, rfl, by decide⟩⟩

/-- C16, counterexample: `idle(0)` woken in the initial state, whose ready
queue is empty, goes on to `schedule(0)`, which issues
`context_switch(0, NULL, -1)`; and the one call `wake_up(0)` issues is a single
signal on the idle condition. -/
theorem idle_schedules_on_empty_queue :
    isQueue (init 1 (-1) freshMem).mem (init 1 (-1) freshMem).ready [] ∧
      (∃ s', idle 0 (init 1 (-1) freshMem) = some s' ∧
        s'.trace = [Call.context_switch 0 none (-1)]) ∧
      (∃ s', wake_up 0 (init 1 (-1) freshMem) = some s' ∧
        s'.trace = [Call.cond_signal]) :=
  ⟨by decide, ⟨_, rfl, by decide⟩, ⟨_, rfl, by decide⟩⟩

/-- C16, amended: a woken `idle(cpu_id)` does not re-check the ready queue, it
always goes on to `schedule(cpu_id)`.  With an empty queue that call issues
`context_switch(cpu_id, NULL, cs_runtime)` and changes neither the queue nor
`current[]`; with a queue holding `p` followed by `q` (and `cpu_id` a CPU of the
table) it dispatches `p`.  The one call issued by `wake_up` on a well-formed
queue is a single signal on the idle condition. -/
theorem idle_always_schedules (cpu_id : Nat) (s : Sched) :
    (isQueue s.mem s.ready [] →
      ∃ s', idle cpu_id s = some s' ∧
        s'.trace = s.trace ++ [Call.context_switch cpu_id none s.cs_runtime] ∧
        s'.current = s.current ∧ isQueue s'.mem s'.ready []) ∧
    (∀ p q, isQueue s.mem s.ready (p :: q) → cpu_id < s.current.length →
      ∃ s', idle cpu_id s = some s' ∧
        isQueue s'.mem s'.ready q ∧
        (s'.mem p).state = process_state_t.PROCESS_RUNNING ∧
        s'.current[cpu_id]? = some (some p) ∧
        s'.trace = s.trace ++ [Call.context_switch cpu_id (some p) s.cs_runtime]) ∧
    (∀ P q, isQueue s.mem s.ready q →
      ∃ s', wake_up P s = some s' ∧ s'.trace = s.trace ++ [Call.cond_signal]) := by
  refine ⟨?_, ?_, ?_⟩
  · intro hq
    refine ⟨_, schedule_nil cpu_id _ hq, rfl, rfl, hq⟩
  · intro p q hq hc
    obtain ⟨s', hs, hq', hm, hcu, htr, _⟩ :=
      schedule_cons cpu_id
        { s with
          locks := s.locks ++
            [LockOp.lock Mutex.current_mutex, LockOp.unlock Mutex.current_mutex,
              LockOp.lock Mutex.current_mutex, LockOp.unlock Mutex.current_mutex] }
        p q hq hc
    refine ⟨s', hs, hq', ?_, ?_, htr⟩
    · rw [hm]; simp
    · rw [hcu]; simp [hc]
  · intro P q hq
    obtain ⟨s', hs, _, htr⟩ := wake_up_trace P s q hq
    exact ⟨s', hs, htr⟩

/-- Witness for the amended C16: the empty initial state and the state with
0, 1 queued. -/
theorem idle_always_schedules_witness :
    (∃ s', idle 0 (init 1 (-1) freshMem) = some s' ∧
        s'.trace = (init 1 (-1) freshMem).trace ++
          [Call.context_switch 0 none (init 1 (-1) freshMem).cs_runtime] ∧
        s'.current = (init 1 (-1) freshMem).current ∧ isQueue s'.mem s'.ready []) ∧
    (∃ s', idle 0 twoQueued = some s' ∧
        isQueue s'.mem s'.ready [1] ∧
        (s'.mem 0).state = process_state_t.PROCESS_RUNNING ∧
        s'.current[0]? = some (some 0) ∧
        s'.trace = twoQueued.trace ++
          [Call.context_switch 0 (some 0) twoQueued.cs_runtime]) ∧
    (∃ s', wake_up 2 twoQueued = some s' ∧
        s'.trace = twoQueued.trace ++ [Call.cond_signal]) :=
  ⟨(idle_always_schedules 0 (init 1 (-1) freshMem)).1 (by decide),
    (idle_always_schedules 0 twoQueued).2.1 0 [1] (by decide) (by decide),
    (idle_always_schedules 0 twoQueued).2.2 2 [0, 1] (by decide)⟩

/-! ## Round-robin overhead and frame -/

/-- C14: let `main` complete with result `r`.  If it was started with four
arguments, the third being `-r`, then `cs_runtime` is the value `atoi` gives
for the fourth; if the third argument is absent or is not `-r`, `cs_runtime`
is -1.  From any scheduler state carrying that `cs_runtime`, every
`context_switch` issued during any sequence of completed calls of `schedule`,
`preempt`, `yield`, `terminate`, `wake_up` and `idle` has that value as its
third argument. -/
theorem context_switch_overhead (atoi : String → Option Int) (malloc_ok : Int → Bool)
    (argv : List String) (r : MainResult) (hmain : main atoi malloc_ok argv = some r) :
    (∀ a3 t, argv.length = 4 → argv[2]? = some "-r" → argv[3]? = some a3 →
      atoi a3 = some t → r.cs_runtime = t) ∧
    (argv[2]? ≠ some "-r" → r.cs_runtime = -1) ∧
    (∀ (s : Sched) (es : List Entry) (s' : Sched),
      s.cs_runtime = r.cs_runtime → runAll es s = some s' →
      ∀ c p t, Call.context_switch c p t ∈ s'.trace.drop s.trace.length →
        t = r.cs_runtime) := by
  refine ⟨?_, ?_, ?_⟩
  · intro a3 t hlen h2 h3 ht
    match argv, hlen with
    | [p, a1, a2, a3'], _ =>
      simp only [List.getElem?_cons_succ, List.getElem?_cons_zero, Option.some.injEq] at h2 h3
      subst h2 h3
      cases h1 : atoi a1 with
      | none => simp [main, h1] at hmain
      | some cpu =>
        rw [main_four_rr atoi malloc_ok p a1 a3' cpu t h1 ht] at hmain
        cases hmain
        split <;> rfl
  · intro h2
    by_cases hg : argv.length % 2 = 0 ∧ argv.length < 5
    · match argv, hg with
      | [], _ => simp [main] at hmain
      | [p, a1], _ =>
        cases h1 : atoi a1 with
        | none => simp [main, h1] at hmain
        | some cpu =>
          rw [main_two atoi malloc_ok p a1 cpu h1] at hmain
          cases hmain
          split <;> rfl
      | [p, a1, a2, a3], _ =>
        have h2' : a2 ≠ "-r" := fun e => h2 (by simp [e])
        cases h1 : atoi a1 with
        | none => simp [main, h1] at hmain
        | some cpu =>
          rw [main_four_other atoi malloc_ok p a1 a2 a3 cpu h1 h2'] at hmain
          cases hmain
          split <;> rfl
      | [_], h =>
        simp only [List.length_cons, List.length_nil] at h
        omega
      | [_, _, _], h =>
        simp only [List.length_cons, List.length_nil] at h
        omega
      | _ :: _ :: _ :: _ :: _ :: _, h =>
        simp only [List.length_cons] at h
        omega
    · rw [main_usage atoi malloc_ok argv hg] at hmain
      cases hmain
      rfl
  · intro s es s' hcs hrun c p t hmem
    obtain ⟨_, ev, htr, hev⟩ := runAll_calls es s s' hrun
    rw [htr, List.drop_left] at hmem
    rw [← hcs]
    exact hev _ hmem c p t rfl

/-- Witness for C14: `os-sim 1 -r 4` sets `cs_runtime` to 4, and from the
state `busyQueued`, which carries 4, the calls `wake_up(3)`, `preempt(0)`,
`idle(0)`, `yield(0)`, `terminate(0)`, `schedule(0)` issue only
`context_switch` calls carrying 4. -/
theorem context_switch_overhead_witness :
    main atoi (fun _ => true) ["os-sim", "1", "-r", "4"] =
        some { exit := Exit.returned 0, started := some 1,
               round_robin_flag := 1, cs_runtime := 4 } ∧
      ∃ s', runAll [Entry.op (Op.wake_up 3), Entry.op (Op.preempt 0), Entry.idle 0,
          Entry.op (Op.yield 0), Entry.op (Op.terminate 0), Entry.op (Op.schedule 0)]
          busyQueued = some s' ∧
        ∀ c p t, Call.context_switch c p t ∈ s'.trace.drop busyQueued.trace.length →
          t = 4 :=
  ⟨by decide, _, rfl,
    (context_switch_overhead atoi (fun _ => true) ["os-sim", "1", "-r", "4"]
      { exit := Exit.returned 0, started := some 1, round_robin_flag := 1, cs_runtime := 4 }
      (by decide)).2.2 busyQueued
      [Entry.op (Op.wake_up 3), Entry.op (Op.preempt 0), Entry.idle 0,
        Entry.op (Op.yield 0), Entry.op (Op.terminate 0), Entry.op (Op.schedule 0)]
      _ rfl rfl⟩

/-- C20: frame.  For a completed call of `schedule`, `preempt`, `yield` or
`terminate` for `cpu_id`, in any state: every slot `current[c]` with `c`
different from `cpu_id` is unchanged; the state field of every process other
than the one held in `current[cpu_id]` before the call and the one at the head
of the ready queue before the call is unchanged; and the only call issued is
one `context_switch` for `cpu_id`.  A completed `wake_up(P)` changes no slot
of `current[]` and the state field of no process other than `P`. -/
theorem handler_frame (op : Op) (s s' : Sched) (h : step op s = some s') :
    (∀ cpu_id, op = Op.schedule cpu_id ∨ op = Op.preempt cpu_id ∨ op = Op.yield cpu_id ∨
        op = Op.terminate cpu_id →
      (∀ c, c ≠ cpu_id → s'.current[c]? = s.current[c]?) ∧
      (∀ a, s.current[cpu_id]? ≠ some (some a) → s.ready.head ≠ some a →
        (s'.mem a).state = (s.mem a).state) ∧
      ∃ x, s'.trace = s.trace ++ [Call.context_switch cpu_id x s.cs_runtime]) ∧
    (∀ P, op = Op.wake_up P →
      s'.current = s.current ∧ ∀ a, a ≠ P → (s'.mem a).state = (s.mem a).state) := by
  refine ⟨?_, ?_⟩
  · intro cpu_id hop
    have hh : schedule cpu_id s = some s' ∨ preempt cpu_id s = some s' ∨
        yield cpu_id s = some s' ∨ terminate cpu_id s = some s' := by
      rcases hop with e | e | e | e <;> subst e
      · exact Or.inl h
      · exact Or.inr (Or.inl h)
      · exact Or.inr (Or.inr (Or.inl h))
      · exact Or.inr (Or.inr (Or.inr h))
    obtain ⟨_, h2, h3, h4⟩ := cpu_handler_frame cpu_id s s' hh
    exact ⟨h3, h4, h2⟩
  · intro P hop
    subst hop
    obtain ⟨_, _, h3, h4⟩ := wake_up_frame P s s' h
    exact ⟨h3, h4⟩

/-- Witness for C20: `preempt(0)` and `wake_up(3)` in the state with one CPU
running process 2 and 0, 1 queued. -/
theorem handler_frame_witness :
    (∃ s', step (Op.preempt 0) busyQueued = some s' ∧
      (∀ c, c ≠ 0 → s'.current[c]? = busyQueued.current[c]?) ∧
      (∀ a, busyQueued.current[0]? ≠ some (some a) → busyQueued.ready.head ≠ some a →
        (s'.mem a).state = (busyQueued.mem a).state) ∧
      ∃ x, s'.trace = busyQueued.trace ++
        [Call.context_switch 0 x busyQueued.cs_runtime]) ∧
    (∃ s', step (Op.wake_up 3) busyQueued = some s' ∧
      s'.current = busyQueued.current ∧
      ∀ a, a ≠ 3 → (s'.mem a).state = (busyQueued.mem a).state) :=
  ⟨⟨_, rfl, (handler_frame (Op.preempt 0) busyQueued _ rfl).1 0 (Or.inr (Or.inl rfl))⟩,
    ⟨_, rfl, (handler_frame (Op.wake_up 3) busyQueued _ rfl).2 3 rfl⟩⟩

/-! ## Invariants of reachable states -/

/-- C12: start from the initial state (empty queue, all slots empty) with no
process READY, and run any sequence of handler calls that follows the engine
protocol and completes.  In the state reached the ready queue is well formed,
and a process is an element of it if and only if its state is READY. -/
theorem ready_queue_iff_ready (cpu_count : Nat) (cs : Int) (mem : Nat → pcb_t)
    (ops : List Op) (s : Sched)
    (hmem : ∀ p, (mem p).state ≠ process_state_t.PROCESS_READY)
    (hf : follows ops (init cpu_count cs mem) = true)
    (hrun : run ops (init cpu_count cs mem) = some s) :
    ∃ q, isQueue s.mem s.ready q ∧
      ∀ p, p ∈ q ↔ (s.mem p).state = process_state_t.PROCESS_READY := by
  obtain ⟨q, hq, hR, hD, _, _⟩ :=
    run_inv True ops _ s (init_inv True cpu_count cs mem (fun _ => hmem)) hf hrun
  exact ⟨q, hq, fun p => ⟨hR p, hD trivial p⟩⟩

/-- Witness for C12: two processes woken, one dispatched and preempted, the
other then yielding. -/
theorem ready_queue_iff_ready_witness :
    ∃ s, run [Op.wake_up 0, Op.wake_up 1, Op.schedule 0, Op.preempt 0, Op.yield 0]
        (init 1 (-1) freshMem) = some s ∧
      ∃ q, isQueue s.mem s.ready q ∧
        ∀ p, p ∈ q ↔ (s.mem p).state = process_state_t.PROCESS_READY :=
  ⟨_, rfl,
    ready_queue_iff_ready 1 (-1) freshMem
      [Op.wake_up 0, Op.wake_up 1, Op.schedule 0, Op.preempt 0, Op.yield 0] _
      (fun _ => by simp [freshMem]) (by decide) rfl⟩

/-- C18: TERMINATED is terminal.  Take any sequence of handler calls from the
initial state that follows the engine protocol (`wake_up` only for a process
that is new or WAITING, hence never for a TERMINATED one; `preempt`, `yield`,
`terminate` only for a CPU last told to run a process), and let it reach a
state in which process `P` is TERMINATED.  Then after any further calls of
`schedule`, `preempt`, `yield`, `terminate` or `wake_up` following that
protocol the state of `P` is still TERMINATED. -/
theorem terminated_is_terminal (cpu_count : Nat) (cs : Int) (mem : Nat → pcb_t)
    (ops1 ops2 : List Op) (s1 s2 : Sched) (P : Nat)
    (hf1 : follows ops1 (init cpu_count cs mem) = true)
    (hrun1 : run ops1 (init cpu_count cs mem) = some s1)
    (hP : (s1.mem P).state = process_state_t.PROCESS_TERMINATED)
    (hf2 : follows ops2 s1 = true) (hrun2 : run ops2 s1 = some s2) :
    (s2.mem P).state = process_state_t.PROCESS_TERMINATED :=
  run_terminated False ops2 s1 s2 P
    (run_inv False ops1 _ s1
      (init_inv False cpu_count cs mem (fun h => absurd h id)) hf1 hrun1)
    hf2 hrun2 hP

/-- Witness for C18: process 0 is terminated while process 1 is
queued; process 1 then runs, is preempted and yields. -/
theorem terminated_is_terminal_witness :
    ∃ s1 s2, run [Op.wake_up 0, Op.schedule 0, Op.wake_up 1, Op.terminate 0]
        (init 1 (-1) freshMem) = some s1 ∧
      (s1.mem 0).state = process_state_t.PROCESS_TERMINATED ∧
      run [Op.preempt 0, Op.wake_up 2, Op.yield 0, Op.schedule 0] s1 = some s2 ∧
      (s2.mem 0).state = process_state_t.PROCESS_TERMINATED :=
  ⟨_, _, rfl, by decide, rfl,
    terminated_is_terminal 1 (-1) freshMem
      [Op.wake_up 0, Op.schedule 0, Op.wake_up 1, Op.terminate 0]
      [Op.preempt 0, Op.wake_up 2, Op.yield 0, Op.schedule 0] _ _ 0
      (by decide) rfl (by decide) (by decide) rfl⟩

/-- C19: start from any state whose ready queue is empty (`head = tail =
NULL`), whatever the `next` links in memory, and run any sequence of handler
calls (`schedule`, `preempt`, `wake_up`, and also `yield`, `terminate`) that
completes and never enqueues a process that is in the queue at that moment.
In the state reached `head` is `NULL` exactly when `tail` is `NULL`, and the
ready queue is well formed: there is a list `q` without repetition such that
`head` is its first process, the `next` links lead from each process of `q` to
the following one, and `tail` is its last process. -/
theorem ready_queue_well_formed (ops : List Op) (s s' : Sched)
    (h0 : s.ready.head = none ∧ s.ready.tail = none)
    (hfresh : freshEnqueues ops s) (hrun : run ops s = some s') :
    (s'.ready.head = none ↔ s'.ready.tail = none) ∧
      ∃ q, isQueue s'.mem s'.ready q ∧ q.Nodup ∧
        s'.ready.head = q.head? ∧ s'.ready.tail = q.getLast? := by
  obtain ⟨q, hq⟩ := run_well_formed ops s s' [] h0 hfresh hrun
  exact ⟨isQueue_head_tail _ _ q hq, q, hq, isQueue_nodup _ _ q hq,
    (isQueue_ends _ _ q hq).1, (isQueue_ends _ _ q hq).2⟩

/-- Witness for C19: three processes are woken, process 0 is dispatched and
preempted.  The queue then holds 2, 0 while the stale link of the tail process
0 still points to process 1, which is no longer queued. -/
theorem ready_queue_well_formed_witness :
    ∃ s', run [Op.wake_up 0, Op.wake_up 1, Op.wake_up 2, Op.schedule 0, Op.preempt 0]
        (init 1 (-1) freshMem) = some s' ∧
      (s'.mem 0).next = some 1 ∧ isQueue s'.mem s'.ready [2, 0] ∧
      (s'.ready.head = none ↔ s'.ready.tail = none) ∧
      ∃ q, isQueue s'.mem s'.ready q ∧ q.Nodup ∧
        s'.ready.head = q.head? ∧ s'.ready.tail = q.getLast? :=
  ⟨_, rfl, by decide, by decide,
    ready_queue_well_formed
      [Op.wake_up 0, Op.wake_up 1, Op.wake_up 2, Op.schedule 0, Op.preempt 0]
      (init 1 (-1) freshMem) _ (by decide)
      (freshEnqueues_cons _ _ _ _ [] rfl (by decide) (by decide)
        (freshEnqueues_cons _ _ _ _ [0] rfl (by decide) (by decide)
          (freshEnqueues_cons _ _ _ _ [0, 1] rfl (by decide) (by decide)
            (freshEnqueues_cons _ _ _ _ [0, 1, 2] rfl (by decide) (by decide)
              (freshEnqueues_cons _ _ _ _ [1, 2] rfl (by decide) (by decide)
                trivial)))))
      rfl⟩

/-- C17: no lost wake-up.  Let `s` be reached from the initial state by
protocol-following calls, let its ready queue hold the `k` processes of `q`,
and let `wake_up(P)` be allowed (`P` new or WAITING).  Then `wake_up(P)`
completes, and after any further protocol-following calls, with `d` the
processes dispatched by them in order: as long as at most `k` dispatches have
happened, `P` is READY and queued with exactly `k - d.length` processes ahead
of it; if more than `k` have happened, the dispatch number `k + 1` was that of
`P`; and when exactly `k` have happened, the next allowed and completed call of
`schedule`, `preempt`, `yield` or `terminate` for a CPU `c` issues
`context_switch(c, P, cs_runtime)` and leaves `P` RUNNING in `current[c]`. -/
theorem no_lost_wake_up (cpu_count : Nat) (cs : Int) (mem : Nat → pcb_t)
    (ops0 : List Op) (s : Sched) (q : List Nat) (P : Nat)
    (hf0 : follows ops0 (init cpu_count cs mem) = true)
    (hrun0 : run ops0 (init cpu_count cs mem) = some s)
    (hq : isQueue s.mem s.ready q)
    (hP : allowed s (Op.wake_up P) = true) :
    ∃ s1, wake_up P s = some s1 ∧
      ∀ ops s2, follows ops s1 = true → run ops s1 = some s2 →
        ∃ d q2, isQueue s2.mem s2.ready q2 ∧
          dispatched s2.trace = dispatched s1.trace ++ d ∧
          (d.length ≤ q.length →
            q2[q.length - d.length]? = some P ∧
              (s2.mem P).state = process_state_t.PROCESS_READY) ∧
          (q.length < d.length → d[q.length]? = some P) ∧
          (d.length = q.length → ∀ op c s3,
            op = Op.schedule c ∨ op = Op.preempt c ∨ op = Op.yield c ∨
              op = Op.terminate c →
            allowed s2 op = true → step op s2 = some s3 →
            s3.current[c]? = some (some P) ∧
              (s3.mem P).state = process_state_t.PROCESS_RUNNING ∧
              s3.trace = s2.trace ++ [Call.context_switch c (some P) s2.cs_runtime]) := by
  have hinv : Inv False s :=
    run_inv False ops0 _ s (init_inv False cpu_count cs mem (fun h => absurd h id)) hf0 hrun0
  have hnd := inv_fresh False (Op.wake_up P) s q hinv hq hP
  have hPq : P ∉ q := by
    intro hmem
    exact (List.nodup_append.mp hnd).2.2 hmem (by simp [enqueues])
  obtain ⟨s1, hs1, hq1, _, _, _, _, _⟩ := wake_up_spec P s q hq hPq
  have hinv1 : Inv False s1 := step_inv False (Op.wake_up P) s s1 hinv hP hs1
  refine ⟨s1, hs1, ?_⟩
  intro ops s2 hf hrun
  obtain ⟨d, q2, hq2, hd, he⟩ := inv_run_fifo False ops s1 s2 (q ++ [P]) hinv1 hq1 hf hrun
  have hinv2 : Inv False s2 := run_inv False ops s1 s2 hinv1 hf hrun
  have key : (d ++ q2)[q.length]? = some P := by
    rw [he, List.getElem?_append_left (by simp)]
    exact List.getElem?_concat_length q P
  have hstay : d.length ≤ q.length → q2[q.length - d.length]? = some P := by
    intro hle
    rw [← List.getElem?_append_right hle]
    exact key
  refine ⟨d, q2, hq2, hd, ?_, ?_, ?_⟩
  · intro hle
    refine ⟨hstay hle, ?_⟩
    obtain ⟨q0, hq0, hR, _, _, _⟩ := hinv2
    have hqq : q0 = q2 := isQueue_unique _ _ q0 q2 hq0 hq2
    subst hqq
    exact hR P (List.getElem?_mem (hstay hle))
  · intro hlt
    exact (@List.getElem?_append_left _ d q2 q.length hlt).symm.trans key
  · intro heq op c s3 hop hal hs3
    have h0 := hstay (Nat.le_of_eq heq)
    rw [heq, Nat.sub_self] at h0
    cases q2 with
    | nil => simp at h0
    | cons H t =>
      have hH : H = P := by simpa using h0
      subst hH
      exact step_head False op c s2 s3 H t hinv2 hq2 hop hal hs3

/-- Witness for C17: two CPUs, processes 0 and 1 queued when process 2 is
woken. -/
theorem no_lost_wake_up_witness :
    ∃ s, run [Op.wake_up 0, Op.wake_up 1] (init 2 (-1) freshMem) = some s ∧
      ∃ s1, wake_up 2 s = some s1 ∧
      ∀ ops s2, follows ops s1 = true → run ops s1 = some s2 →
        ∃ d q2, isQueue s2.mem s2.ready q2 ∧
          dispatched s2.trace = dispatched s1.trace ++ d ∧
          (d.length ≤ [0, 1].length →
            q2[[0, 1].length - d.length]? = some 2 ∧
              (s2.mem 2).state = process_state_t.PROCESS_READY) ∧
          ([0, 1].length < d.length → d[[0, 1].length]? = some 2) ∧
          (d.length = [0, 1].length → ∀ op c s3,
            op = Op.schedule c ∨ op = Op.preempt c ∨ op = Op.yield c ∨
              op = Op.terminate c →
            allowed s2 op = true → step op s2 = some s3 →
            s3.current[c]? = some (some 2) ∧
              (s3.mem 2).state = process_state_t.PROCESS_RUNNING ∧
              s3.trace = s2.trace ++ [Call.context_switch c (some 2) s2.cs_runtime]) :=
  ⟨_, rfl,
    no_lost_wake_up 2 (-1) freshMem [Op.wake_up 0, Op.wake_up 1] _ [0, 1] 2
      (by decide) rfl (by decide) (by decide)⟩

end OsSim
